import Mathlib

/-!
Verification of the core of the cocrafts/graphql serverless GraphQL-over-WebSocket
adapter: the Redis-backed connection/subscription registry and pub/sub fan-out
(packages/graphql-lambda/src/pubsub/index.ts), the per-connection context store and
codec (packages/graphql-lambda/src/utils/context.ts, utils/proxy.ts), and the
protocol state machine of the WebSocket adapter (the adapters/ws source file).

JavaScript runtime values that can appear in a connection context are embedded as
the inductive type JSVal below; Redis state is embedded as association lists kept
in insertion order (Redis set-member enumeration order is modelled as insertion
order); asynchronous code is embedded by making every suspension's outcome an
explicit parameter and recording issued I/O as explicit action lists, with a flag
recording whether the issuing code awaited the call.
-/

set_option maxRecDepth 10000

namespace GraphqlLambda

/-- JavaScript value tree: the value domain of the per-connection context.
Numbers are modelled as integers (the protocol stores only finite numbers, and
the decimal printing/parsing pair used by the codec is exact on integers);
objects are ordered field lists (JavaScript string-key insertion order) and
arrays are ordered element lists. -/
inductive JSVal where
  | vbool : Bool → JSVal
  | vnum : Int → JSVal
  | vstr : String → JSVal
  | vnull : JSVal
  | vundef : JSVal
  | vobj : List (String × JSVal) → JSVal
  | varr : List JSVal → JSVal

/-- JavaScript truthiness of an embedded value (objects and arrays are always
truthy; false, 0, the empty string, null and undefined are falsy). -/
def isTruthy : JSVal → Bool
  | .vbool b => b
  | .vnum n => n != 0
  | .vstr s => s != ""
  | .vnull => false
  | .vundef => false
  | .vobj _ => true
  | .varr _ => true

/-- Whether typeof of the value is the string object, which holds for objects,
arrays and null in JavaScript. -/
def isObjectType : JSVal → Bool
  | .vobj _ => true
  | .varr _ => true
  | .vnull => true
  | _ => false

/-- Whether a value is an array (models Array.isArray). -/
def isArray : JSVal → Bool
  | .varr _ => true
  | _ => false

/-! ### Character-level string primitives

The adapter manipulates paths and keys with the JavaScript string methods
split, indexOf, substring and pop.  They are embedded as recursive functions
over the character list of the string so that their algebra can be proved. -/

/-- Split a character list at the first occurrence of the separator, returning
the part before it and the part after it; none when the separator is absent.
Models s.indexOf(sep) combined with the two substring calls around it. -/
def breakAtChar (sep : Char) : List Char → Option (List Char × List Char)
  | [] => none
  | c :: rest =>
    if c = sep then some ([], rest)
    else (breakAtChar sep rest).map (fun p => (c :: p.1, p.2))

theorem breakAtChar_none_of_not_mem {sep : Char} {cs : List Char} (h : sep ∉ cs) :
    breakAtChar sep cs = none := by
  induction cs with
  | nil => rfl
  | cons c rest ih =>
    simp only [List.mem_cons, not_or] at h
    have hc : ¬c = sep := fun hc => h.1 hc.symm
    simp [breakAtChar, hc, ih h.2]

theorem breakAtChar_append_sep {sep : Char} {a : List Char} (ha : sep ∉ a) (t : List Char) :
    breakAtChar sep (a ++ sep :: t) = some (a, t) := by
  induction a with
  | nil => simp [breakAtChar]
  | cons c rest ih =>
    simp only [List.mem_cons, not_or] at ha
    have hc : ¬c = sep := fun hc => ha.1 hc.symm
    simp [breakAtChar, hc, ih ha.2]

/-- Tail of the split loop: consumes characters into an accumulator and emits a
segment at each separator. -/
def splitCharAux (sep : Char) : List Char → List Char → List (List Char)
  | [], acc => [acc.reverse]
  | c :: rest, acc =>
    if c = sep then acc.reverse :: splitCharAux sep rest []
    else splitCharAux sep rest (c :: acc)

/-- Full split of a character list on a separator character; models the
JavaScript split method, so the empty list splits to one empty segment. -/
def splitChar (sep : Char) (cs : List Char) : List (List Char) :=
  splitCharAux sep cs []

theorem splitCharAux_no_sep {sep : Char} {a : List Char} (ha : sep ∉ a) :
    ∀ acc, splitCharAux sep a acc = [acc.reverse ++ a] := by
  induction a with
  | nil => intro acc; simp [splitCharAux]
  | cons c rest ih =>
    intro acc
    simp only [List.mem_cons, not_or] at ha
    have hc : ¬c = sep := fun hc => ha.1 hc.symm
    simp [splitCharAux, hc, ih ha.2]

theorem splitCharAux_append_sep {sep : Char} {a : List Char} (ha : sep ∉ a) (t : List Char) :
    ∀ acc, splitCharAux sep (a ++ sep :: t) acc = (acc.reverse ++ a) :: splitCharAux sep t [] := by
  induction a with
  | nil => intro acc; simp [splitCharAux]
  | cons c rest ih =>
    intro acc
    simp only [List.mem_cons, not_or] at ha
    have hc : ¬c = sep := fun hc => ha.1 hc.symm
    simp [splitCharAux, hc, ih ha.2]

/-- Splitting undoes interleaving with the separator when no segment contains
the separator. -/
theorem splitChar_intercalate {sep : Char} :
    ∀ segs : List (List Char), segs ≠ [] → (∀ s ∈ segs, sep ∉ s) →
      splitChar sep (List.intercalate [sep] segs) = segs := by
  intro segs
  induction segs with
  | nil => intro h; exact absurd rfl h
  | cons a rest ih =>
    intro _ hfree
    match rest with
    | [] =>
      rw [List.intercalate]
      simp only [List.intersperse_single, List.flatten, List.append_nil]
      rw [splitChar, splitCharAux_no_sep (hfree a (by simp))]
      simp
    | b :: rest2 =>
      have hjoin : List.intercalate [sep] (a :: b :: rest2)
          = a ++ sep :: List.intercalate [sep] (b :: rest2) := by
        simp only [List.intercalate, List.intersperse]
        simp
      rw [hjoin, splitChar, splitCharAux_append_sep (hfree a (by simp))]
      simp only [List.reverse_nil, List.nil_append]
      rw [show splitCharAux sep (List.intercalate [sep] (b :: rest2)) [] =
            splitChar sep (List.intercalate [sep] (b :: rest2)) from rfl]
      rw [ih (by simp) (fun s hs => hfree s (List.mem_cons_of_mem _ hs))]

theorem splitChar_no_sep {sep : Char} {a : List Char} (ha : sep ∉ a) :
    splitChar sep a = [a] := by
  rw [splitChar, splitCharAux_no_sep ha]
  simp

/-! ### Decimal numerals

JavaScript renders array indices and numbers with the template/String
conversion and reads indices back with parseInt; both sides of that pair are
embedded here.  The printer recurses on an explicit fuel bound (the number
itself) so that it stays structurally recursive. -/

/-- Decimal digit character for a digit value below ten. -/
def digitCharOf (d : Nat) : Char :=
  match d with
  | 0 => '0' | 1 => '1' | 2 => '2' | 3 => '3' | 4 => '4'
  | 5 => '5' | 6 => '6' | 7 => '7' | 8 => '8' | _ => '9'

/-- Whether a character is a decimal digit (the character class of the numeric
path-segment test in the source). -/
def isDigitChar (c : Char) : Bool :=
  '0' ≤ c && c ≤ '9'

/-- Digit characters of a positive natural number, most significant first; the
first argument is recursion fuel and must be at least the number. -/
def natReprCore : Nat → Nat → List Char
  | 0, _ => []
  | fuel + 1, n =>
    if n = 0 then []
    else natReprCore fuel (n / 10) ++ [digitCharOf (n % 10)]

/-- Decimal rendering of a natural number (models the JavaScript string
conversion of an array index). -/
def natRepr (n : Nat) : String :=
  if n = 0 then "0" else String.mk (natReprCore n n)

/-- Decimal rendering of an integer (models the JavaScript string conversion
used when a number value is serialized). -/
def intRepr (n : Int) : String :=
  if n < 0 then "-" ++ natRepr n.natAbs else natRepr n.natAbs

/-- Numeric value of a digit list, most significant first (the accumulator fold
of parseInt on an all-digit string). -/
def parseDigits (ds : List Char) : Nat :=
  ds.foldl (fun acc c => acc * 10 + (c.toNat - 48)) 0

/-- Numeric-string test of the source (the regular expression matching one or
more digits and nothing else). -/
def isArrayIndex (s : String) : Bool :=
  s.data ≠ [] && s.data.all isDigitChar

/-- Reads an array index back from its decimal segment; models parseInt with
radix ten on a string already known to match the digit regular expression. -/
def parseIndex (s : String) : Nat :=
  parseDigits s.data

theorem digitCharOf_isDigit {d : Nat} (h : d < 10) : isDigitChar (digitCharOf d) = true := by
  interval_cases d <;> decide

theorem digitCharOf_toNat {d : Nat} (h : d < 10) : (digitCharOf d).toNat - 48 = d := by
  interval_cases d <;> decide

theorem digitCharOf_ne_dot {d : Nat} (h : d < 10) : digitCharOf d ≠ '.' := by
  interval_cases d <;> decide

theorem natReprCore_digits {fuel : Nat} :
    ∀ {n : Nat}, n ≤ fuel → ∀ c ∈ natReprCore fuel n, isDigitChar c = true := by
  induction fuel with
  | zero => intro n _ c hc; simp [natReprCore] at hc
  | succ fuel ih =>
    intro n hn c hc
    by_cases h0 : n = 0
    · simp [natReprCore, h0] at hc
    · simp only [natReprCore, if_neg h0, List.mem_append, List.mem_singleton] at hc
      rcases hc with hc | hc
      · exact ih (by omega : n / 10 ≤ fuel) c hc
      · rw [hc]; exact digitCharOf_isDigit (Nat.mod_lt n (by omega))

theorem parseDigits_append (ds : List Char) (c : Char) :
    parseDigits (ds ++ [c]) = parseDigits ds * 10 + (c.toNat - 48) := by
  simp [parseDigits, List.foldl_append]

theorem natReprCore_parse {fuel : Nat} :
    ∀ {n : Nat}, n ≤ fuel → parseDigits (natReprCore fuel n) = n := by
  induction fuel with
  | zero => intro n hn; interval_cases n; simp [natReprCore, parseDigits]
  | succ fuel ih =>
    intro n hn
    by_cases h0 : n = 0
    · simp [natReprCore, h0, parseDigits]
    · rw [natReprCore, if_neg h0, parseDigits_append,
        ih (by omega : n / 10 ≤ fuel), digitCharOf_toNat (Nat.mod_lt n (by omega))]
      omega

theorem natReprCore_ne_nil {fuel n : Nat} (hn : n ≤ fuel) (h0 : n ≠ 0) :
    natReprCore fuel n ≠ [] := by
  match fuel with
  | 0 => exact absurd (Nat.le_zero.mp hn) h0
  | fuel + 1 =>
    rw [natReprCore, if_neg h0]
    simp

/-- Rendering then parsing an array index is the identity. -/
theorem parseIndex_natRepr (n : Nat) : parseIndex (natRepr n) = n := by
  by_cases h0 : n = 0
  · simp [natRepr, h0, parseIndex, parseDigits]
  · rw [natRepr, if_neg h0]
    exact natReprCore_parse (le_refl n)

/-- Decimal renderings pass the numeric-segment test. -/
theorem isArrayIndex_natRepr (n : Nat) : isArrayIndex (natRepr n) = true := by
  by_cases h0 : n = 0
  · simp [natRepr, h0]; decide
  · rw [natRepr, if_neg h0]
    simp only [isArrayIndex, Bool.and_eq_true, decide_eq_true_eq, List.all_eq_true]
    exact ⟨by simpa using natReprCore_ne_nil (le_refl n) h0,
      fun c hc => natReprCore_digits (le_refl n) c hc⟩

/-- Decimal renderings contain no dot character. -/
theorem natRepr_no_dot (n : Nat) : '.' ∉ (natRepr n).data := by
  by_cases h0 : n = 0
  · simp [natRepr, h0]
  · rw [natRepr, if_neg h0]
    intro hmem
    have := natReprCore_digits (le_refl n) '.' (by simpa using hmem)
    simp [isDigitChar] at this

/-! ### Key parsing helpers of the registry -/

/-- Models key.split(sep).pop(): the segment after the last colon of a Redis
key, used by extractId in the pub/sub registry. -/
def extractId (s : String) : String :=
  String.mk ((s.data.reverse.takeWhile (fun c => c != ':')).reverse)

theorem takeWhile_append_stop {p : Char → Bool} {xs : List Char} (hxs : ∀ c ∈ xs, p c = true)
    {y : Char} (hy : p y = false) (ys : List Char) :
    (xs ++ y :: ys).takeWhile p = xs := by
  induction xs with
  | nil => simp [List.takeWhile_cons, hy]
  | cons x rest ih =>
    have h1 : p x = true := hxs x (by simp)
    simp only [List.cons_append, List.takeWhile_cons, h1, if_true]
    rw [ih (fun c hc => hxs c (by simp [hc]))]

/-- The extraction recovers the trailing id of a namespaced key when the id
itself contains no colon. -/
theorem extractId_append {a b : String} (hb : ':' ∉ b.data) :
    extractId (a ++ ":" ++ b) = b := by
  have hdata : (a ++ ":" ++ b).data = a.data ++ ':' :: b.data := by
    simp [String.data_append]
  have hall : ∀ c ∈ b.data.reverse, (c != ':') = true := by
    intro c hc
    have hmem : c ∈ b.data := List.mem_reverse.mp hc
    simp only [bne_iff_ne, ne_eq]
    intro hceq
    exact hb (hceq ▸ hmem)
  have hstop : ((':' : Char) != ':') = false := by simp
  rw [extractId, hdata]
  rw [show (a.data ++ ':' :: b.data).reverse = b.data.reverse ++ ':' :: a.data.reverse by simp]
  rw [takeWhile_append_stop hall hstop]
  rw [List.reverse_reverse]

/-! ### Type-tagged value codec of utils/context.ts

serializeValue encodes a primitive context value into a Redis string with a
leading double-underscore type tag; deserializeValue inverts it by locating the
closing double underscore with indexOf and dispatching on the tag. -/

/-- Locates the first occurrence of two consecutive underscores in a character
list, returning the characters before and after it; models indexOf applied to
the double-underscore token. -/
def breakAtDunder : List Char → Option (List Char × List Char)
  | [] => none
  | [_] => none
  | c :: c2 :: rest =>
    if c = '_' && c2 = '_' then some ([], rest)
    else (breakAtDunder (c2 :: rest)).map (fun p => (c :: p.1, p.2))

theorem breakAtDunder_append {xs : List Char} (hxs : '_' ∉ xs) (ys : List Char) :
    breakAtDunder (xs ++ '_' :: '_' :: ys) = some (xs, ys) := by
  induction xs with
  | nil => simp [breakAtDunder]
  | cons c rest ih =>
    simp only [List.mem_cons, not_or] at hxs
    have hc : ¬c = '_' := fun h => hxs.1 h.symm
    cases rest with
    | nil => simp [breakAtDunder, hc]
    | cons d rest2 =>
      simp only [List.cons_append] at ih ⊢
      simp [breakAtDunder, hc, ih hxs.2]

/-- Splits off a leading double-underscore tag: the startsWith check plus the
indexOf search of deserializeValue. -/
def deTagL : List Char → Option (List Char × List Char)
  | '_' :: '_' :: cs => breakAtDunder cs
  | _ => none

/-- Whether the string has the double-underscore tagged shape that the decoder
rewrites (a leading double underscore with a later closing double underscore). -/
def hasTagForm (s : String) : Bool :=
  (deTagL s.data).isSome

/-- Model of the JavaScript Number conversion restricted to the decimal integer
grammar: the empty string reads as zero, an optional minus sign followed by
digits reads as a signed integer, and anything else is NaN (none).  The codec
only ever feeds this with decimal renderings of integers. -/
def jsNumberInt (s : String) : Option Int :=
  match s.data with
  | [] => some 0
  | c :: ds =>
    if c = '-' then
      if ds ≠ [] && ds.all isDigitChar then some (-(parseDigits ds : Int)) else none
    else if (c :: ds).all isDigitChar then some ((parseDigits (c :: ds) : Int)) else none

/-- Dispatch on a recognized type tag, as in the switch of deserializeValue; an
unknown tag falls back to the raw post-tag content. -/
def detagged (t content : String) : JSVal :=
  if t = "boolean" then .vbool (content = "true")
  else if t = "number" then
    match jsNumberInt content with
    | some n => .vnum n
    | none => .vstr content
  else if t = "string" then .vstr content
  else if t = "null" then .vnull
  else if t = "undefined" then .vundef
  else .vstr content

/-- Decoder of the codec: a tagged string is decoded by its tag, anything else
is a plain string (deserializeValue in the source). -/
def deserializeValue (s : String) : JSVal :=
  match deTagL s.data with
  | none => .vstr s
  | some (tc, cc) => detagged (String.mk tc) (String.mk cc)

/-- Encoder of the codec (serializeValue in the source): null, undefined,
booleans and numbers get a type tag, strings pass through unchanged.  The
container fallback models the String() coercion branch, which no flattened
code path reaches (flattening only passes primitive leaves); the array case is
approximated. -/
def serializeValue : JSVal → String
  | .vnull => "__null__"
  | .vundef => "__undefined__"
  | .vbool b => "__boolean__" ++ (if b then "true" else "false")
  | .vnum n => "__number__" ++ intRepr n
  | .vstr s => s
  | .vobj _ => "[object Object]"
  | .varr _ => ""

theorem deserializeValue_no_tag {s : String} (h : hasTagForm s = false) :
    deserializeValue s = .vstr s := by
  rw [deserializeValue]
  cases hd : deTagL s.data with
  | none => rfl
  | some p => rw [hasTagForm, hd] at h; simp at h

theorem jsNumberInt_of_digits {s : String} (hne : ¬s.data = [])
    (hdig : s.data.all isDigitChar = true) :
    jsNumberInt s = some ((parseDigits s.data : Int)) := by
  obtain ⟨c, ds, h⟩ := List.exists_cons_of_ne_nil hne
  rw [h] at hdig
  have hc : isDigitChar c = true := by
    simp only [List.all_cons, Bool.and_eq_true] at hdig
    exact hdig.1
  have hcneg : ¬c = '-' := by
    intro he
    rw [he] at hc
    simp [isDigitChar] at hc
  rw [jsNumberInt, h]
  simp [hcneg, hdig]

theorem jsNumberInt_intRepr (n : Int) : jsNumberInt (intRepr n) = some n := by
  have hnr : ∀ m : Nat, parseDigits (natRepr m).data = m := fun m => parseIndex_natRepr m
  have hprops := fun m : Nat => isArrayIndex_natRepr m
  rcases lt_or_ge n 0 with hn | hn
  · rw [intRepr, if_pos hn]
    have hdata : ("-" ++ natRepr n.natAbs).data = '-' :: (natRepr n.natAbs).data := by
      have : ("-" ++ natRepr n.natAbs).data = "-".data ++ (natRepr n.natAbs).data := by
        simp [String.data_append]
      rw [this]
      rfl
    have hbody := hprops n.natAbs
    simp only [isArrayIndex, Bool.and_eq_true] at hbody
    have habs : ((n.natAbs : Int)) = -n := Int.ofNat_natAbs_of_nonpos (le_of_lt hn)
    rw [jsNumberInt, hdata]
    simp [hbody.1, hbody.2, hnr, habs]
  · rw [intRepr, if_neg (not_lt.mpr hn)]
    have hbody := hprops n.natAbs
    simp only [isArrayIndex, Bool.and_eq_true, decide_eq_true_eq] at hbody
    rw [jsNumberInt_of_digits hbody.1 hbody.2, hnr n.natAbs]
    congr 1
    omega

theorem deserialize_serialize_num (n : Int) :
    deserializeValue (serializeValue (.vnum n)) = .vnum n := by
  have hdata : ("__number__" ++ intRepr n).data
      = '_' :: '_' :: ("number".data ++ '_' :: '_' :: (intRepr n).data) := by
    have : ("__number__" ++ intRepr n).data = "__number__".data ++ (intRepr n).data := by
      simp [String.data_append]
    rw [this]
    rfl
  rw [show serializeValue (.vnum n) = "__number__" ++ intRepr n from rfl]
  rw [deserializeValue, hdata]
  rw [show deTagL ('_' :: '_' :: ("number".data ++ '_' :: '_' :: (intRepr n).data))
      = breakAtDunder ("number".data ++ '_' :: '_' :: (intRepr n).data) from rfl]
  rw [breakAtDunder_append (by decide)]
  show detagged (String.mk "number".data) (String.mk (intRepr n).data) = .vnum n
  have hcontent : String.mk (intRepr n).data = intRepr n := rfl
  rw [hcontent]
  show detagged "number" (intRepr n) = .vnum n
  rw [detagged, if_neg (by decide), if_pos rfl, jsNumberInt_intRepr]

theorem deserialize_serialize_bool (b : Bool) :
    deserializeValue (serializeValue (.vbool b)) = .vbool b := by
  cases b <;> rfl

theorem deserialize_serialize_null : deserializeValue (serializeValue .vnull) = .vnull := rfl

theorem deserialize_serialize_undef : deserializeValue (serializeValue .vundef) = .vundef := rfl

theorem deserialize_serialize_str {s : String} (h : hasTagForm s = false) :
    deserializeValue (serializeValue (.vstr s)) = .vstr s :=
  deserializeValue_no_tag h

/-! ### Flattening of nested context trees (flattenObject in utils/context.ts) -/

/-- Whether a value is a genuine container (object or array), equivalently
truthy with typeof object; this is the keep condition of navigateOrCreate. -/
def isContainer : JSVal → Bool
  | .vobj _ => true
  | .varr _ => true
  | _ => false

mutual

/-- Recursive flattening with dot-notation paths: null and undefined become
leaf entries, arrays recurse with decimal index segments, objects recurse with
field-name segments, and primitive values become leaf entries. -/
def flattenObject : JSVal → String → List (String × JSVal)
  | .vnull, p => [(p, .vnull)]
  | .vundef, p => [(p, .vundef)]
  | .varr xs, p => flattenArr xs 0 p
  | .vobj fs, p => flattenFields fs p
  | v, p => [(p, v)]
termination_by v _ => sizeOf v

/-- Flattening of array elements; the counter carries the decimal index of the
current element. -/
def flattenArr : List JSVal → Nat → String → List (String × JSVal)
  | [], _, _ => []
  | v :: rest, i, p => flattenObject v (p ++ "." ++ natRepr i) ++ flattenArr rest (i + 1) p
termination_by xs _ _ => sizeOf xs

/-- Flattening of the fields of an object. -/
def flattenFields : List (String × JSVal) → String → List (String × JSVal)
  | [], _ => []
  | (k, v) :: rest, p => flattenObject v (p ++ "." ++ k) ++ flattenFields rest p
termination_by fs _ => sizeOf fs

end

/-! ### Context compression (compressContext in utils/context.ts) -/

/-- The graphql-ws connection context as the adapter persists it: the two
protocol flags, the connection parameters (undefined until ConnectionInit) and
the user extra tree.  The subscriptions field of graphql-ws is process-local
and intentionally never persisted, so the stored-context model omits it; the
rebuilt context type below carries it explicitly. -/
structure WSContext where
  connectionInitReceived : Bool
  acknowledged : Bool
  connectionParams : JSVal
  extra : JSVal

/-- Compression of a context into the flat field list stored in the Redis hash:
the two flags are serialized directly (they are booleans, hence never the
undefined that the source guards against), and connectionParams and extra are
flattened when truthy and serialized per entry. -/
def compressContext (c : WSContext) : List (String × String) :=
  [("connectionInitReceived", serializeValue (.vbool c.connectionInitReceived)),
   ("acknowledged", serializeValue (.vbool c.acknowledged))]
  ++ (if isTruthy c.connectionParams then
        (flattenObject c.connectionParams "connectionParams").map
          (fun e => (e.1, serializeValue e.2))
      else [])
  ++ (if isTruthy c.extra then
        (flattenObject c.extra "extra").map (fun e => (e.1, serializeValue e.2))
      else [])

/-! ### Context rebuilding (buildContext and setNestedValue in utils/context.ts) -/

/-- The context object as buildContext reconstructs it.  The two flags hold
whatever the decoder produced, connectionParams is none while the property has
not been created, and subscriptions is the always-initialized empty object. -/
structure BuiltContext where
  connectionInitReceived : JSVal
  acknowledged : JSVal
  connectionParams : Option JSVal
  subscriptions : JSVal
  extra : JSVal

/-- Array expansion of the source: push undefined until the index is in range. -/
def expandTo (xs : List JSVal) (i : Nat) : List JSVal :=
  xs ++ List.replicate (i + 1 - xs.length) (.vundef)

/-- Indexing with the JavaScript out-of-range result. -/
def getIndex (xs : List JSVal) (i : Nat) : JSVal :=
  xs.getD i (.vundef)

/-- Property write on an ordered field list: overwrite in place, else append
(JavaScript insertion-order semantics). -/
def setField : List (String × JSVal) → String → JSVal → List (String × JSVal)
  | [], k, v => [(k, v)]
  | (k2, w) :: rest, k, v =>
    if k2 = k then (k2, v) :: rest else (k2, w) :: setField rest k v

/-- Property read on an ordered field list. -/
def lookupField : List (String × JSVal) → String → Option JSVal
  | [], _ => none
  | (k2, w) :: rest, k => if k2 = k then some w else lookupField rest k

/-- Final assignment of setNestedValue: numeric keys expand and write arrays
and are dropped on non-arrays; other keys write object fields.  A string-key
write on an array or a primitive is invisible to this model (on an array it
would create a non-index property that the codec never revisits). -/
def setFinalValue (T : JSVal) (k : String) (v : JSVal) : JSVal :=
  if isArrayIndex k then
    match T with
    | .varr xs => .varr ((expandTo xs (parseIndex k)).set (parseIndex k) v)
    | _ => T
  else
    match T with
    | .vobj fs => .vobj (setField fs k v)
    | _ => T

/-- Nested write of setNestedValue: walk the path, creating or repairing
intermediate containers exactly as navigateOrCreate does (an existing array
element is kept whenever it is a container; an existing object field is kept
only when its arrayness matches the next segment), and apply the final write.
When a numeric segment is navigated on a non-array, navigateOrCreate returns
the same object and the walk continues with the next segment. -/
def setNestedValue : JSVal → List String → JSVal → JSVal
  | T, [], _ => T
  | T, [k], v => setFinalValue T k v
  | T, k :: k2 :: rest, v =>
    let nextIsArr := isArrayIndex k2
    if isArrayIndex k then
      match T with
      | .varr xs =>
        let i := parseIndex k
        let xs2 := expandTo xs i
        let child := getIndex xs2 i
        let child2 := if isContainer child then child
          else if nextIsArr then .varr [] else .vobj []
        .varr (xs2.set i (setNestedValue child2 (k2 :: rest) v))
      | _ => setNestedValue T (k2 :: rest) v
    else
      match T with
      | .vobj fs =>
        let child := (lookupField fs k).getD .vundef
        let child2 := if isContainer child && (isArray child == nextIsArr) then child
          else if nextIsArr then .varr [] else .vobj []
        .vobj (setField fs k (setNestedValue child2 (k2 :: rest) v))
      | _ => T

/-- Path splitting of setNestedValue: split on dots and drop empty segments
(the filter over Boolean in the source). -/
def splitPathSegs (path : String) : List String :=
  ((splitChar '.' path.data).map String.mk).filter (fun s => s ≠ "")

/-- Initial accumulator of buildContext. -/
def initialBuiltContext : BuiltContext :=
  { connectionInitReceived := .vbool false, acknowledged := .vbool false,
    connectionParams := none, subscriptions := .vobj [], extra := .vobj [] }

/-- One entry of the rebuild loop of buildContext: top-level flags are decoded
directly; dotted keys are routed by their first segment into connectionParams
(created on first use), extra or subscriptions; anything else is skipped. -/
def buildStep (c : BuiltContext) (kv : String × String) : BuiltContext :=
  if kv.1 = "connectionInitReceived" then
    { c with connectionInitReceived := deserializeValue kv.2 }
  else if kv.1 = "acknowledged" then
    { c with acknowledged := deserializeValue kv.2 }
  else
    match breakAtChar '.' kv.1.data with
    | none => c
    | some (pre, post) =>
      let prefixStr := String.mk pre
      let segs := splitPathSegs (String.mk post)
      if prefixStr = "connectionParams" then
        let cp := match c.connectionParams with
          | some p => if isTruthy p then p else .vobj []
          | none => .vobj []
        { c with connectionParams := some (setNestedValue cp segs (deserializeValue kv.2)) }
      else if prefixStr = "extra" then
        if isTruthy c.extra then
          { c with extra := setNestedValue c.extra segs (deserializeValue kv.2) }
        else c
      else if prefixStr = "subscriptions" then
        if isTruthy c.subscriptions then
          { c with subscriptions := setNestedValue c.subscriptions segs (deserializeValue kv.2) }
        else c
      else c

/-- Rebuild of the context from the raw flat record read out of Redis. -/
def buildContext (raw : List (String × String)) : BuiltContext :=
  raw.foldl buildStep initialBuiltContext

/-- Reading of the connectionParams property of a rebuilt context: an absent
property reads as undefined. -/
def builtParams (b : BuiltContext) : JSVal :=
  b.connectionParams.getD (.vundef)

/-- Deep equality on the four top-level context fields named by the round-trip
property (subscriptions excluded). -/
def restrictedEq (b : BuiltContext) (c : WSContext) : Prop :=
  b.connectionInitReceived = .vbool c.connectionInitReceived ∧
  b.acknowledged = .vbool c.acknowledged ∧
  builtParams b = c.connectionParams ∧
  b.extra = c.extra

/-! ### Round-trip analysis for the codec

The rebuild is analysed through ghost entries: the flattened entries of a value
with their paths kept as segment lists instead of dot-joined strings. -/

mutual

/-- Ghost entries of a value: a primitive is one entry at the empty relative
path; containers contribute entries of their children prefixed by the field
name or the decimal index. -/
def entriesOf : JSVal → List (List String × JSVal)
  | .vobj fs => fieldEntries fs
  | .varr xs => elemEntries xs 0
  | v => [([], v)]
termination_by v => sizeOf v

/-- Ghost entries contributed by the fields of an object, in field order. -/
def fieldEntries : List (String × JSVal) → List (List String × JSVal)
  | [] => []
  | (k, v) :: rest => (entriesOf v).map (fun e => (k :: e.1, e.2)) ++ fieldEntries rest
termination_by fs => sizeOf fs

/-- Ghost entries contributed by the elements of an array starting at a given
index. -/
def elemEntries : List JSVal → Nat → List (List String × JSVal)
  | [], _ => []
  | v :: rest, i => (entriesOf v).map (fun e => (natRepr i :: e.1, e.2)) ++ elemEntries rest (i + 1)
termination_by xs _ => sizeOf xs

end

/-- Sequential application of setNestedValue for a list of ghost entries; this
is what the rebuild loop performs on one routed top-level field. -/
def insertEntries (T : JSVal) (es : List (List String × JSVal)) : JSVal :=
  es.foldl (fun t e => setNestedValue t e.1 e.2) T

theorem insertEntries_append (T : JSVal) (es1 es2 : List (List String × JSVal)) :
    insertEntries T (es1 ++ es2) = insertEntries (insertEntries T es1) es2 := by
  simp [insertEntries, List.foldl_append]

/-- Path segments acceptable to the rebuild: nonempty keys free of dots that do
not look like array indices. -/
def goodKey (k : String) : Prop :=
  k.data ≠ [] ∧ '.' ∉ k.data ∧ isArrayIndex k = false

instance goodKeyDecidable (k : String) : Decidable (goodKey k) :=
  decidable_of_iff (k.data ≠ [] ∧ '.' ∉ k.data ∧ isArrayIndex k = false) (by rw [goodKey])

/-- Values on which the storage codec is lossless: primitive leaves whose
serialized form decodes to themselves (strings must not carry a type-tag
shape), and nonempty containers of such values with good distinct keys. -/
inductive GoodVal : JSVal → Prop where
  | bool (b : Bool) : GoodVal (.vbool b)
  | num (n : Int) : GoodVal (.vnum n)
  | str (s : String) (h : hasTagForm s = false) : GoodVal (.vstr s)
  | nullv : GoodVal .vnull
  | undef : GoodVal .vundef
  | obj (fs : List (String × JSVal)) (hne : fs ≠ [])
      (hkeys : ∀ p ∈ fs, goodKey p.1)
      (hnodup : (fs.map Prod.fst).Nodup)
      (hvals : ∀ p ∈ fs, GoodVal p.2) : GoodVal (.vobj fs)
  | arr (xs : List JSVal) (hne : xs ≠ []) (hx : ∀ v ∈ xs, GoodVal v) :
      GoodVal (.varr xs)

/-- Well-formed object field lists: good distinct keys and good values. -/
def GoodFields (fs : List (String × JSVal)) : Prop :=
  (∀ p ∈ fs, goodKey p.1) ∧ (fs.map Prod.fst).Nodup ∧ ∀ p ∈ fs, GoodVal p.2

/-! #### Association-list and array lemmas for the rebuild -/

theorem lookupField_setField_self (fs : List (String × JSVal)) (k : String) (v : JSVal) :
    lookupField (setField fs k v) k = some v := by
  induction fs with
  | nil => simp [setField, lookupField]
  | cons p rest ih =>
    obtain ⟨k2, w⟩ := p
    by_cases h : k2 = k
    · simp [setField, lookupField, h]
    · simp [setField, lookupField, h, ih]

theorem setField_of_lookup_self {fs : List (String × JSVal)} {k : String} {c : JSVal}
    (h : lookupField fs k = some c) : setField fs k c = fs := by
  induction fs with
  | nil => simp [lookupField] at h
  | cons p rest ih =>
    obtain ⟨k2, w⟩ := p
    by_cases hk : k2 = k
    · rw [lookupField, if_pos hk] at h
      cases h
      simp [setField, hk]
    · rw [lookupField, if_neg hk] at h
      simp [setField, hk, ih h]

theorem setField_setField (fs : List (String × JSVal)) (k : String) (x y : JSVal) :
    setField (setField fs k x) k y = setField fs k y := by
  induction fs with
  | nil => simp [setField]
  | cons p rest ih =>
    obtain ⟨k2, w⟩ := p
    by_cases h : k2 = k
    · simp [setField, h]
    · simp [setField, h, ih]

theorem setField_of_lookup_none {fs : List (String × JSVal)} {k : String}
    (h : lookupField fs k = none) (v : JSVal) : setField fs k v = fs ++ [(k, v)] := by
  induction fs with
  | nil => simp [setField]
  | cons p rest ih =>
    obtain ⟨k2, w⟩ := p
    by_cases hk : k2 = k
    · rw [lookupField, if_pos hk] at h
      simp at h
    · rw [lookupField, if_neg hk] at h
      simp [setField, hk, ih h]

theorem lookupField_append_of_none {fs : List (String × JSVal)} {k k2 : String}
    (h : lookupField fs k2 = none) (hne : ¬k = k2) (v : JSVal) :
    lookupField (fs ++ [(k, v)]) k2 = none := by
  induction fs with
  | nil => simp [lookupField, hne]
  | cons p rest ih =>
    obtain ⟨k3, w⟩ := p
    by_cases hk : k3 = k2
    · rw [lookupField, if_pos hk] at h
      simp at h
    · rw [lookupField, if_neg hk] at h
      simp [lookupField, hk, ih h]

theorem lookupField_append_self {fs : List (String × JSVal)} {k : String}
    (h : lookupField fs k = none) (v : JSVal) :
    lookupField (fs ++ [(k, v)]) k = some v := by
  induction fs with
  | nil => simp [lookupField]
  | cons p rest ih =>
    obtain ⟨k3, w⟩ := p
    by_cases hk : k3 = k
    · rw [lookupField, if_pos hk] at h
      simp at h
    · rw [lookupField, if_neg hk] at h
      simp [lookupField, hk, ih h]

theorem expandTo_of_lt {xs : List JSVal} {i : Nat} (h : i < xs.length) :
    expandTo xs i = xs := by
  rw [expandTo, show i + 1 - xs.length = 0 by omega]
  simp

theorem expandTo_at_length (xs : List JSVal) :
    expandTo xs xs.length = xs ++ [.vundef] := by
  rw [expandTo, show xs.length + 1 - xs.length = 1 by omega]
  simp

theorem set_getD_self {xs : List JSVal} {i : Nat} (h : i < xs.length) (d : JSVal) :
    xs.set i (xs.getD i d) = xs := by
  induction xs generalizing i with
  | nil => simp at h
  | cons x rest ih =>
    cases i with
    | zero => simp [List.set, List.getD]
    | succ j =>
      simp only [List.length_cons] at h
      have hj : j < rest.length := by omega
      have hrec := ih hj
      simp only [List.getD_cons_succ, List.set_cons_succ]
      rw [hrec]

theorem getD_append_length (xs : List JSVal) (a d : JSVal) :
    (xs ++ [a]).getD xs.length d = a := by
  induction xs with
  | nil => simp [List.getD]
  | cons x rest ih => simp only [List.cons_append, List.length_cons, List.getD_cons_succ]; exact ih

theorem set_append_length (xs : List JSVal) (a b : JSVal) :
    (xs ++ [a]).set xs.length b = xs ++ [b] := by
  induction xs with
  | nil => simp
  | cons x rest ih => simp [List.set, ih]

theorem getIndex_set_self {xs : List JSVal} {i : Nat} (h : i < xs.length) (v : JSVal) :
    getIndex (xs.set i v) i = v := by
  induction xs generalizing i with
  | nil => simp at h
  | cons x rest ih =>
    cases i with
    | zero => simp [List.set, getIndex, List.getD]
    | succ j =>
      simp only [List.length_cons] at h
      have hj : j < rest.length := by omega
      simpa [List.set, getIndex] using ih hj

theorem insertEntries_cons (T : JSVal) (e : List String × JSVal)
    (rest : List (List String × JSVal)) :
    insertEntries T (e :: rest) = insertEntries (setNestedValue T e.1 e.2) rest := rfl

/-! #### Shape preservation of the nested write -/

theorem setNestedValue_shape (p : List String) :
    ∀ T v : JSVal, isArray (setNestedValue T p v) = isArray T ∧
      isContainer (setNestedValue T p v) = isContainer T := by
  induction p with
  | nil => intro T v; simp [setNestedValue]
  | cons k rest ih =>
    intro T v
    cases rest with
    | nil =>
      show isArray (setFinalValue T k v) = _ ∧ isContainer (setFinalValue T k v) = _
      by_cases hk : isArrayIndex k = true
      · cases T <;> simp [setFinalValue, hk, isArray, isContainer]
      · cases T <;> simp [setFinalValue, hk, isArray, isContainer]
    | cons k2 rest2 =>
      by_cases hk : isArrayIndex k = true
      · cases T with
        | varr xs => simp [setNestedValue, hk, isArray, isContainer]
        | vobj fs => simp only [setNestedValue, hk, if_true]; exact ih _ v
        | vbool b => simp only [setNestedValue, hk, if_true]; exact ih _ v
        | vnum n => simp only [setNestedValue, hk, if_true]; exact ih _ v
        | vstr s => simp only [setNestedValue, hk, if_true]; exact ih _ v
        | vnull => simp only [setNestedValue, hk, if_true]; exact ih _ v
        | vundef => simp only [setNestedValue, hk, if_true]; exact ih _ v
      · cases T with
        | vobj fs => simp [setNestedValue, hk, isArray, isContainer]
        | varr xs => simp [setNestedValue, hk]
        | vbool b => simp [setNestedValue, hk]
        | vnum n => simp [setNestedValue, hk]
        | vstr s => simp [setNestedValue, hk]
        | vnull => simp [setNestedValue, hk]
        | vundef => simp [setNestedValue, hk]

/-! #### Insertion lemmas: how a run of entries below one key rebuilds that
key's child value -/

theorem insert_obj_existing :
    ∀ (es0 : List (List String × JSVal)) (fs : List (String × JSVal)) (k : String) (c : JSVal),
      lookupField fs k = some c → isContainer c = true → isArrayIndex k = false →
      (∀ e ∈ es0, ∃ h2 t, e.1 = h2 :: t ∧ isArrayIndex h2 = isArray c) →
      insertEntries (.vobj fs) (es0.map (fun e => (k :: e.1, e.2)))
        = .vobj (setField fs k (insertEntries c es0)) := by
  intro es0
  induction es0 with
  | nil =>
    intro fs k c hlk _ _ _
    simp [insertEntries, setField_of_lookup_self hlk]
  | cons e rest ih =>
    intro fs k c hlk hc hk hmatch
    obtain ⟨h2, t, hp, harr⟩ := hmatch e (by simp)
    have hbeq : (isArray c == isArrayIndex h2) = true := by rw [harr]; simp
    have hstep : setNestedValue (.vobj fs) (k :: e.1) e.2
        = .vobj (setField fs k (setNestedValue c e.1 e.2)) := by
      rw [hp]
      simp only [setNestedValue, hlk, Option.getD_some]
      rw [if_neg (by simp [hk])]
      rw [if_pos (by simp [hc, hbeq])]
    rw [List.map_cons, insertEntries_cons]
    simp only []
    rw [hstep]
    have hshape := setNestedValue_shape e.1 c e.2
    rw [ih (setField fs k (setNestedValue c e.1 e.2)) k (setNestedValue c e.1 e.2)
      (lookupField_setField_self fs k _) (by rw [hshape.2]; exact hc) hk
      (fun e2 he2 => by
        obtain ⟨h3, t3, hp3, harr3⟩ := hmatch e2 (by simp [he2])
        exact ⟨h3, t3, hp3, by rw [harr3, hshape.1]⟩)]
    rw [setField_setField]
    rfl

theorem setField_append_self {fs : List (String × JSVal)} {k : String}
    (h : lookupField fs k = none) (x y : JSVal) :
    setField (fs ++ [(k, x)]) k y = fs ++ [(k, y)] := by
  induction fs with
  | nil => simp [setField]
  | cons p rest ih =>
    obtain ⟨k3, w⟩ := p
    by_cases hk : k3 = k
    · rw [lookupField, if_pos hk] at h
      simp at h
    · rw [lookupField, if_neg hk] at h
      simp [setField, hk, ih h]

theorem insert_obj_new (e0 : List String × JSVal) (rest0 : List (List String × JSVal))
    (fs : List (String × JSVal)) (k : String) (a : Bool)
    (hlk : lookupField fs k = none) (hk : isArrayIndex k = false)
    (hmatch : ∀ e ∈ e0 :: rest0, ∃ h2 t, e.1 = h2 :: t ∧ isArrayIndex h2 = a) :
    insertEntries (.vobj fs) ((e0 :: rest0).map (fun e => (k :: e.1, e.2)))
      = .vobj (fs ++ [(k, insertEntries (if a then .varr [] else .vobj []) (e0 :: rest0))]) := by
  obtain ⟨h2, t, hp, harr⟩ := hmatch e0 (by simp)
  have hfreshc : isContainer (if a then JSVal.varr [] else JSVal.vobj []) = true := by
    cases a <;> simp [isContainer]
  have hfresha : isArray (if a then JSVal.varr [] else JSVal.vobj []) = a := by
    cases a <;> simp [isArray]
  have hstep : setNestedValue (.vobj fs) (k :: e0.1) e0.2
      = .vobj (fs ++ [(k, setNestedValue (if a then .varr [] else .vobj []) e0.1 e0.2)]) := by
    rw [hp]
    simp only [setNestedValue, hlk, Option.getD_none]
    rw [if_neg (by simp [hk])]
    rw [if_neg (by simp [isContainer])]
    rw [setField_of_lookup_none hlk]
    rw [harr]
  rw [List.map_cons, insertEntries_cons]
  simp only []
  rw [hstep]
  have hshape := setNestedValue_shape e0.1 (if a then JSVal.varr [] else JSVal.vobj []) e0.2
  rw [insert_obj_existing rest0 _ k _
    (lookupField_append_self hlk _) (by rw [hshape.2]; exact hfreshc) hk
    (fun e2 he2 => by
      obtain ⟨h3, t3, hp3, harr3⟩ := hmatch e2 (by simp [he2])
      exact ⟨h3, t3, hp3, by rw [harr3, hshape.1, hfresha]⟩)]
  rw [setField_append_self hlk]
  rfl

theorem insert_arr_existing :
    ∀ (es0 : List (List String × JSVal)) (xs : List JSVal) (i : Nat) (c : JSVal),
      i < xs.length → getIndex xs i = c → isContainer c = true →
      (∀ e ∈ es0, e.1 ≠ []) →
      insertEntries (.varr xs) (es0.map (fun e => (natRepr i :: e.1, e.2)))
        = .varr (xs.set i (insertEntries c es0)) := by
  intro es0
  induction es0 with
  | nil =>
    intro xs i c hi hg _ _
    rw [insertEntries, List.map_nil, List.foldl_nil, insertEntries, List.foldl_nil]
    rw [← hg, getIndex, set_getD_self hi]
  | cons e rest ih =>
    intro xs i c hi hg hc hne
    obtain ⟨h2, t, hp⟩ := List.exists_cons_of_ne_nil (hne e (by simp))
    have hstep : setNestedValue (.varr xs) (natRepr i :: e.1) e.2
        = .varr (xs.set i (setNestedValue c e.1 e.2)) := by
      rw [hp]
      simp only [setNestedValue]
      rw [if_pos (by simp [isArrayIndex_natRepr i])]
      rw [parseIndex_natRepr, expandTo_of_lt hi, hg]
      rw [if_pos (by simp [hc])]
    rw [List.map_cons, insertEntries_cons]
    simp only []
    rw [hstep]
    have hshape := setNestedValue_shape e.1 c e.2
    rw [ih (xs.set i (setNestedValue c e.1 e.2)) i (setNestedValue c e.1 e.2)
      (by rw [List.length_set]; exact hi) (getIndex_set_self hi _)
      (by rw [hshape.2]; exact hc)
      (fun e2 he2 => hne e2 (by simp [he2]))]
    rw [List.set_set]
    rfl

theorem insert_arr_new (e0 : List String × JSVal) (rest0 : List (List String × JSVal))
    (xs : List JSVal) (a : Bool)
    (hmatch : ∀ e ∈ e0 :: rest0, ∃ h2 t, e.1 = h2 :: t ∧ isArrayIndex h2 = a) :
    insertEntries (.varr xs) ((e0 :: rest0).map (fun e => (natRepr xs.length :: e.1, e.2)))
      = .varr (xs ++ [insertEntries (if a then .varr [] else .vobj []) (e0 :: rest0)]) := by
  obtain ⟨h2, t, hp, harr⟩ := hmatch e0 (by simp)
  have hstep : setNestedValue (.varr xs) (natRepr xs.length :: e0.1) e0.2
      = .varr (xs ++ [setNestedValue (if a then .varr [] else .vobj []) e0.1 e0.2]) := by
    rw [hp]
    simp only [setNestedValue]
    rw [if_pos (by simp [isArrayIndex_natRepr])]
    rw [parseIndex_natRepr, expandTo_at_length]
    rw [show getIndex (xs ++ [JSVal.vundef]) xs.length = .vundef from getD_append_length xs _ _]
    rw [if_neg (by simp [isContainer])]
    rw [set_append_length]
    rw [harr]
  rw [List.map_cons, insertEntries_cons]
  simp only []
  rw [hstep]
  have hshape := setNestedValue_shape e0.1 (if a then JSVal.varr [] else JSVal.vobj []) e0.2
  have hfreshc : isContainer (if a then JSVal.varr [] else JSVal.vobj []) = true := by
    cases a <;> simp [isContainer]
  rw [insert_arr_existing rest0 _ xs.length _
    (by simp) (getD_append_length xs _ _)
    (by rw [hshape.2]; exact hfreshc)
    (fun e2 he2 => by
      obtain ⟨h3, t3, hp3, _⟩ := hmatch e2 (by simp [he2])
      simp [hp3])]
  rw [set_append_length]
  rfl

/-! #### Facts about ghost entries of good values -/

theorem entriesOf_scalar {v : JSVal} (h : isContainer v = false) :
    entriesOf v = [([], v)] := by
  cases v with
  | vobj fs => simp [isContainer] at h
  | varr xs => simp [isContainer] at h
  | vbool b => rw [entriesOf] <;> simp
  | vnum n => rw [entriesOf] <;> simp
  | vstr s => rw [entriesOf] <;> simp
  | vnull => rw [entriesOf] <;> simp
  | vundef => rw [entriesOf] <;> simp

theorem entriesOf_ne_nil : ∀ {v : JSVal}, GoodVal v → entriesOf v ≠ [] := by
  intro v hv
  induction hv with
  | bool b => rw [entriesOf] <;> simp
  | num n => rw [entriesOf] <;> simp
  | str s h => rw [entriesOf] <;> simp
  | nullv => rw [entriesOf] <;> simp
  | undef => rw [entriesOf] <;> simp
  | obj fs hne hkeys hnodup hvals ih =>
    rw [entriesOf]
    match fs, hne, ih with
    | (k, v0) :: rest, _, ih =>
      rw [fieldEntries]
      intro habs
      rcases List.append_eq_nil.mp habs with ⟨h1, _⟩
      exact ih (k, v0) (by simp) (List.map_eq_nil_iff.mp h1)
  | arr xs hne hx ih =>
    rw [entriesOf]
    match xs, hne, ih with
    | v0 :: rest, _, ih =>
      rw [elemEntries]
      intro habs
      rcases List.append_eq_nil.mp habs with ⟨h1, _⟩
      exact ih v0 (by simp) (List.map_eq_nil_iff.mp h1)

theorem fieldEntries_heads {fs : List (String × JSVal)} (hkeys : ∀ p ∈ fs, goodKey p.1) :
    ∀ e ∈ fieldEntries fs, ∃ h2 t, e.1 = h2 :: t ∧ isArrayIndex h2 = false := by
  induction fs with
  | nil => rw [fieldEntries]; simp
  | cons p rest ih =>
    obtain ⟨k, v⟩ := p
    rw [fieldEntries]
    intro e he
    rcases List.mem_append.mp he with he1 | he2
    · obtain ⟨e0, _, heq⟩ := List.mem_map.mp he1
      exact ⟨k, e0.1, by rw [← heq], (hkeys (k, v) (by simp)).2.2⟩
    · exact ih (fun q hq => hkeys q (List.mem_cons_of_mem _ hq)) e he2

theorem elemEntries_heads {xs : List JSVal} :
    ∀ {i : Nat}, ∀ e ∈ elemEntries xs i, ∃ h2 t, e.1 = h2 :: t ∧ isArrayIndex h2 = true := by
  induction xs with
  | nil => intro i; rw [elemEntries]; simp
  | cons v rest ih =>
    intro i
    rw [elemEntries]
    intro e he
    rcases List.mem_append.mp he with he1 | he2
    · obtain ⟨e0, _, heq⟩ := List.mem_map.mp he1
      exact ⟨natRepr i, e0.1, by rw [← heq], isArrayIndex_natRepr i⟩
    · exact ih e he2

theorem entriesOf_heads {v : JSVal} (hv : GoodVal v) (hc : isContainer v = true) :
    ∀ e ∈ entriesOf v, ∃ h2 t, e.1 = h2 :: t ∧ isArrayIndex h2 = isArray v := by
  cases hv with
  | obj fs hne hkeys hnodup hvals =>
    intro e he
    rw [entriesOf] at he
    obtain ⟨h2, t, hp, harr⟩ := fieldEntries_heads hkeys e he
    exact ⟨h2, t, hp, by rw [harr]; rfl⟩
  | arr xs hne hx =>
    intro e he
    rw [entriesOf] at he
    obtain ⟨h2, t, hp, harr⟩ := elemEntries_heads e he
    exact ⟨h2, t, hp, by rw [harr]; rfl⟩
  | bool b => simp [isContainer] at hc
  | num n => simp [isContainer] at hc
  | str s h => simp [isContainer] at hc
  | nullv => simp [isContainer] at hc
  | undef => simp [isContainer] at hc

/-! #### The reconstruction: inserting the ghost entries of a good value into a
fresh container rebuilds the value exactly -/

mutual

/-- Inserting the entries of a good container into the matching fresh empty
container rebuilds it. -/
theorem rebuild_val : ∀ v : JSVal, GoodVal v → isContainer v = true →
    insertEntries (if isArray v then .varr [] else .vobj []) (entriesOf v) = v
  | .vobj fs, hv, _ => by
    have hgf : GoodFields fs := by
      cases hv with
      | obj fs hne hkeys hnodup hvals => exact ⟨hkeys, hnodup, hvals⟩
    rw [show ((if isArray (JSVal.vobj fs) then JSVal.varr [] else JSVal.vobj [])
        = JSVal.vobj []) from by simp [isArray]]
    rw [show entriesOf (.vobj fs) = fieldEntries fs from by rw [entriesOf]]
    rw [rebuild_obj fs [] hgf (fun p _ => rfl)]
    simp
  | .varr xs, hv, _ => by
    have hx : ∀ w ∈ xs, GoodVal w := by
      cases hv with
      | arr xs hne hx => exact hx
    rw [show ((if isArray (JSVal.varr xs) then JSVal.varr [] else JSVal.vobj [])
        = JSVal.varr []) from by simp [isArray]]
    rw [show entriesOf (.varr xs) = elemEntries xs 0 from by rw [entriesOf]]
    rw [show (0 : Nat) = List.length ([] : List JSVal) from rfl]
    rw [rebuild_arr xs [] hx]
    simp
  | .vbool _, _, hc => by simp [isContainer] at hc
  | .vnum _, _, hc => by simp [isContainer] at hc
  | .vstr _, _, hc => by simp [isContainer] at hc
  | .vnull, _, hc => by simp [isContainer] at hc
  | .vundef, _, hc => by simp [isContainer] at hc

/-- Inserting the field entries of a good field list into an object that has
none of its keys appends exactly those fields in order. -/
theorem rebuild_obj : ∀ (fs acc : List (String × JSVal)), GoodFields fs →
    (∀ p ∈ fs, lookupField acc p.1 = none) →
    insertEntries (.vobj acc) (fieldEntries fs) = .vobj (acc ++ fs)
  | [], acc, _, _ => by
    rw [fieldEntries]
    simp [insertEntries]
  | (k, v) :: rest, acc, hgf, hacc => by
    obtain ⟨hkeys, hnodup, hvals⟩ := hgf
    have hkgood : goodKey k := hkeys (k, v) (by simp)
    have hlkacc : lookupField acc k = none := hacc (k, v) (by simp)
    have hvgood : GoodVal v := hvals (k, v) (by simp)
    rw [fieldEntries, insertEntries_append]
    have hfirst : insertEntries (.vobj acc) ((entriesOf v).map (fun e => (k :: e.1, e.2)))
        = .vobj (acc ++ [(k, v)]) := by
      by_cases hcont : isContainer v = true
      · obtain ⟨e0, rest0, hes⟩ := List.exists_cons_of_ne_nil (entriesOf_ne_nil hvgood)
        rw [hes]
        rw [insert_obj_new e0 rest0 acc k (isArray v) hlkacc hkgood.2.2
          (fun e he => entriesOf_heads hvgood hcont e (hes ▸ he))]
        rw [← hes, rebuild_val v hvgood hcont]
      · rw [entriesOf_scalar (by revert hcont; cases isContainer v <;> simp)]
        rw [show ([([], v)].map (fun e => (k :: e.1, e.2))) = [([k], v)] from rfl]
        rw [show insertEntries (.vobj acc) [([k], v)]
            = setNestedValue (.vobj acc) [k] v from rfl]
        rw [show setNestedValue (.vobj acc) [k] v = setFinalValue (.vobj acc) k v from rfl]
        rw [setFinalValue, if_neg (by simp [hkgood.2.2])]
        rw [setField_of_lookup_none hlkacc]
    rw [hfirst]
    rw [rebuild_obj rest (acc ++ [(k, v)])
      ⟨fun p hp => hkeys p (List.mem_cons_of_mem _ hp),
       (List.nodup_cons.mp hnodup).2,
       fun p hp => hvals p (List.mem_cons_of_mem _ hp)⟩
      (fun p hp => lookupField_append_of_none (hacc p (List.mem_cons_of_mem _ hp))
        (fun hkp => (List.nodup_cons.mp hnodup).1 (by
          have hmem : p.1 ∈ List.map Prod.fst rest := List.mem_map_of_mem Prod.fst hp
          rw [← hkp] at hmem
          exact hmem)) v)]
    simp

/-- Inserting the element entries of good values starting at the current length
of an array appends exactly those elements in order. -/
theorem rebuild_arr : ∀ (xs acc : List JSVal), (∀ v ∈ xs, GoodVal v) →
    insertEntries (.varr acc) (elemEntries xs acc.length) = .varr (acc ++ xs)
  | [], acc, _ => by
    rw [elemEntries]
    simp [insertEntries]
  | v :: rest, acc, hx => by
    have hvgood : GoodVal v := hx v (by simp)
    rw [elemEntries, insertEntries_append]
    have hfirst : insertEntries (.varr acc)
        ((entriesOf v).map (fun e => (natRepr acc.length :: e.1, e.2)))
        = .varr (acc ++ [v]) := by
      by_cases hcont : isContainer v = true
      · obtain ⟨e0, rest0, hes⟩ := List.exists_cons_of_ne_nil (entriesOf_ne_nil hvgood)
        rw [hes]
        rw [insert_arr_new e0 rest0 acc (isArray v)
          (fun e he => entriesOf_heads hvgood hcont e (hes ▸ he))]
        rw [← hes, rebuild_val v hvgood hcont]
      · rw [entriesOf_scalar (by revert hcont; cases isContainer v <;> simp)]
        rw [show ([([], v)].map (fun e => (natRepr acc.length :: e.1, e.2)))
            = [([natRepr acc.length], v)] from rfl]
        rw [show insertEntries (.varr acc) [([natRepr acc.length], v)]
            = setFinalValue (.varr acc) (natRepr acc.length) v from rfl]
        rw [setFinalValue, if_pos (by simp [isArrayIndex_natRepr])]
        rw [parseIndex_natRepr, expandTo_at_length, set_append_length]
    rw [hfirst]
    rw [show acc.length + 1 = (acc ++ [v]).length from by simp]
    rw [rebuild_arr rest (acc ++ [v]) (fun w hw => hx w (List.mem_cons_of_mem _ hw))]
    simp

end

/-! #### Correspondence between the string flattening and the ghost entries -/

/-- Dot-joined path of a base prefix and relative segments, left-associated
exactly as the flattening extends its prefix argument. -/
def dotJoin (p : String) (segs : List String) : String :=
  segs.foldl (fun acc k => acc ++ "." ++ k) p

mutual

theorem flatten_corr : ∀ (v : JSVal) (p : String),
    flattenObject v p = (entriesOf v).map (fun e => (dotJoin p e.1, e.2))
  | .vobj fs, p => by
    rw [show flattenObject (.vobj fs) p = flattenFields fs p from by rw [flattenObject]]
    rw [show entriesOf (.vobj fs) = fieldEntries fs from by rw [entriesOf]]
    exact flattenFields_corr fs p
  | .varr xs, p => by
    rw [show flattenObject (.varr xs) p = flattenArr xs 0 p from by rw [flattenObject]]
    rw [show entriesOf (.varr xs) = elemEntries xs 0 from by rw [entriesOf]]
    exact flattenArr_corr xs 0 p
  | .vbool b, p => by
    rw [show flattenObject (.vbool b) p = [(p, .vbool b)] from by rw [flattenObject] <;> simp]
    rw [show entriesOf (.vbool b) = [([], .vbool b)] from by rw [entriesOf] <;> simp]
    rfl
  | .vnum n, p => by
    rw [show flattenObject (.vnum n) p = [(p, .vnum n)] from by rw [flattenObject] <;> simp]
    rw [show entriesOf (.vnum n) = [([], .vnum n)] from by rw [entriesOf] <;> simp]
    rfl
  | .vstr s, p => by
    rw [show flattenObject (.vstr s) p = [(p, .vstr s)] from by rw [flattenObject] <;> simp]
    rw [show entriesOf (.vstr s) = [([], .vstr s)] from by rw [entriesOf] <;> simp]
    rfl
  | .vnull, p => by
    rw [show flattenObject .vnull p = [(p, .vnull)] from by rw [flattenObject] <;> simp]
    rw [show entriesOf .vnull = [([], .vnull)] from by rw [entriesOf] <;> simp]
    rfl
  | .vundef, p => by
    rw [show flattenObject .vundef p = [(p, .vundef)] from by rw [flattenObject] <;> simp]
    rw [show entriesOf .vundef = [([], .vundef)] from by rw [entriesOf] <;> simp]
    rfl

theorem flattenFields_corr : ∀ (fs : List (String × JSVal)) (p : String),
    flattenFields fs p = (fieldEntries fs).map (fun e => (dotJoin p e.1, e.2))
  | [], p => by
    rw [flattenFields, fieldEntries]
    rfl
  | (k, v) :: rest, p => by
    rw [flattenFields, fieldEntries, List.map_append,
      flatten_corr v (p ++ "." ++ k), flattenFields_corr rest p, List.map_map]
    rfl

theorem flattenArr_corr : ∀ (xs : List JSVal) (i : Nat) (p : String),
    flattenArr xs i p = (elemEntries xs i).map (fun e => (dotJoin p e.1, e.2))
  | [], i, p => by
    rw [flattenArr, elemEntries]
    rfl
  | v :: rest, i, p => by
    rw [flattenArr, elemEntries, List.map_append,
      flatten_corr v (p ++ "." ++ natRepr i), flattenArr_corr rest (i + 1) p, List.map_map]
    rfl

end

theorem intercalate_cons_cons {α : Type} (c : α) (a b : List α) (rest : List (List α)) :
    List.intercalate [c] (a :: b :: rest) = a ++ c :: List.intercalate [c] (b :: rest) := by
  simp only [List.intercalate, List.intersperse]
  simp

theorem dotJoin_data : ∀ (segs : List String) (p : String), (dotJoin p segs).data
    = p.data ++ (segs.map (fun s => '.' :: s.data)).flatten := by
  intro segs
  induction segs with
  | nil => intro p; simp [dotJoin]
  | cons k t ih =>
    intro p
    rw [show dotJoin p (k :: t) = dotJoin (p ++ "." ++ k) t from rfl, ih]
    have : (p ++ "." ++ k).data = p.data ++ '.' :: k.data := by
      simp [String.data_append]
    rw [this]
    simp

theorem flatten_dotted : ∀ (s0 : String) (srest : List String),
    (((s0 :: srest).map (fun s => '.' :: s.data)).flatten : List Char)
      = '.' :: List.intercalate ['.'] ((s0 :: srest).map String.data) := by
  intro s0 srest
  induction srest generalizing s0 with
  | nil => simp [List.intercalate]
  | cons s1 t ih =>
    rw [List.map_cons, List.flatten_cons, ih s1]
    rw [show List.map String.data (s0 :: s1 :: t)
        = s0.data :: s1.data :: List.map String.data t from rfl]
    rw [intercalate_cons_cons]
    simp

theorem splitPathSegs_join (segs : List String) (hne : segs ≠ [])
    (hgood : ∀ s ∈ segs, s.data ≠ [] ∧ '.' ∉ s.data) :
    splitPathSegs (String.mk (List.intercalate ['.'] (segs.map String.data))) = segs := by
  rw [splitPathSegs]
  rw [show (String.mk (List.intercalate ['.'] (segs.map String.data))).data
      = List.intercalate ['.'] (segs.map String.data) from rfl]
  rw [splitChar_intercalate (segs.map String.data) (by simp [hne]) (fun s hs => by
    obtain ⟨s0, hs0, heq⟩ := List.mem_map.mp hs
    rw [← heq]
    exact (hgood s0 hs0).2)]
  rw [List.map_map]
  have hcomp : (String.mk ∘ String.data) = id := by
    funext s
    rfl
  rw [hcomp, List.map_id]
  rw [List.filter_eq_self.mpr (fun s hs => by
    have hne2 : s ≠ "" := fun heq => (hgood s hs).1 (by rw [heq])
    simp [hne2])]

/-! #### Routing of rebuild entries through buildStep -/

theorem isTruthy_of_container {v : JSVal} (h : isContainer v = true) : isTruthy v = true := by
  cases v <;> simp_all [isContainer, isTruthy]

theorem buildStep_flag_init (c : BuiltContext) (w : String) :
    buildStep c ("connectionInitReceived", w)
      = { c with connectionInitReceived := deserializeValue w } := by
  rw [buildStep]
  simp

theorem buildStep_flag_ack (c : BuiltContext) (w : String) :
    buildStep c ("acknowledged", w) = { c with acknowledged := deserializeValue w } := by
  rw [buildStep]
  simp

theorem buildStep_cp_entry (c : BuiltContext) {segs : List String} (hne : segs ≠ [])
    (hgood : ∀ s ∈ segs, s.data ≠ [] ∧ '.' ∉ s.data) (w : String) :
    buildStep c (dotJoin "connectionParams" segs, w)
      = { c with connectionParams := some (setNestedValue
          (match c.connectionParams with
            | some p => if isTruthy p then p else .vobj []
            | none => .vobj []) segs (deserializeValue w)) } := by
  obtain ⟨s0, srest, rfl⟩ := List.exists_cons_of_ne_nil hne
  have hkdata : (dotJoin "connectionParams" (s0 :: srest)).data
      = ("connectionParams" : String).data
        ++ '.' :: List.intercalate ['.'] ((s0 :: srest).map String.data) := by
    rw [dotJoin_data, flatten_dotted]
  have hdot : '.' ∈ (dotJoin "connectionParams" (s0 :: srest)).data := by
    rw [hkdata]
    simp
  have hne1 : ¬dotJoin "connectionParams" (s0 :: srest) = "connectionInitReceived" := by
    intro he
    rw [he] at hdot
    exact absurd hdot (by decide)
  have hne2 : ¬dotJoin "connectionParams" (s0 :: srest) = "acknowledged" := by
    intro he
    rw [he] at hdot
    exact absurd hdot (by decide)
  simp only [buildStep]
  rw [if_neg hne1, if_neg hne2, hkdata,
    breakAtChar_append_sep (by decide) (List.intercalate ['.'] ((s0 :: srest).map String.data))]
  show ({ c with connectionParams := (some (setNestedValue _
    (splitPathSegs (String.mk (List.intercalate ['.'] ((s0 :: srest).map String.data))))
    (deserializeValue w))) } : BuiltContext) = _
  rw [splitPathSegs_join (s0 :: srest) (by simp) hgood]

theorem buildStep_extra_entry (c : BuiltContext) (htr : isTruthy c.extra = true)
    {segs : List String} (hne : segs ≠ [])
    (hgood : ∀ s ∈ segs, s.data ≠ [] ∧ '.' ∉ s.data) (w : String) :
    buildStep c (dotJoin "extra" segs, w)
      = { c with extra := setNestedValue c.extra segs (deserializeValue w) } := by
  obtain ⟨s0, srest, rfl⟩ := List.exists_cons_of_ne_nil hne
  have hkdata : (dotJoin "extra" (s0 :: srest)).data
      = ("extra" : String).data
        ++ '.' :: List.intercalate ['.'] ((s0 :: srest).map String.data) := by
    rw [dotJoin_data, flatten_dotted]
  have hdot : '.' ∈ (dotJoin "extra" (s0 :: srest)).data := by
    rw [hkdata]
    simp
  have hne1 : ¬dotJoin "extra" (s0 :: srest) = "connectionInitReceived" := by
    intro he
    rw [he] at hdot
    exact absurd hdot (by decide)
  have hne2 : ¬dotJoin "extra" (s0 :: srest) = "acknowledged" := by
    intro he
    rw [he] at hdot
    exact absurd hdot (by decide)
  simp only [buildStep]
  rw [if_neg hne1, if_neg hne2, hkdata,
    breakAtChar_append_sep (by decide) (List.intercalate ['.'] ((s0 :: srest).map String.data))]
  show (if (String.mk ("extra" : String).data) = "connectionParams" then _
    else if (String.mk ("extra" : String).data) = "extra" then _ else _) = _
  rw [if_neg (by decide), if_pos (by rfl), if_pos htr]
  show ({ c with extra := (setNestedValue c.extra
    (splitPathSegs (String.mk (List.intercalate ['.'] ((s0 :: srest).map String.data))))
    (deserializeValue w)) } : BuiltContext) = _
  rw [splitPathSegs_join (s0 :: srest) (by simp) hgood]

theorem foldl_cp_entries (es : List (List String × JSVal)) :
    ∀ (c : BuiltContext) (t : JSVal), c.connectionParams = some t → isContainer t = true →
    (∀ e ∈ es, e.1 ≠ [] ∧ (∀ s ∈ e.1, s.data ≠ [] ∧ '.' ∉ s.data)
      ∧ deserializeValue (serializeValue e.2) = e.2) →
    List.foldl buildStep c
        (es.map (fun e => (dotJoin "connectionParams" e.1, serializeValue e.2)))
      = { c with connectionParams := some (insertEntries t es) } := by
  induction es with
  | nil =>
    intro c t hcp _ _
    rw [List.map_nil, List.foldl_nil, insertEntries, List.foldl_nil, ← hcp]
  | cons e rest ih =>
    intro c t hcp hcont hconds
    obtain ⟨hnee, hsegs, hleaf⟩ := hconds e (by simp)
    rw [List.map_cons, List.foldl_cons]
    rw [buildStep_cp_entry c hnee hsegs]
    rw [show (match c.connectionParams with
        | some p => if isTruthy p then p else JSVal.vobj []
        | none => JSVal.vobj []) = t from by
      rw [hcp]
      simp [isTruthy_of_container hcont]]
    rw [hleaf]
    rw [ih _ (setNestedValue t e.1 e.2) rfl
      (by rw [(setNestedValue_shape e.1 t e.2).2]; exact hcont)
      (fun e2 he2 => hconds e2 (by simp [he2]))]
    rw [insertEntries_cons]

theorem foldl_extra_entries (es : List (List String × JSVal)) :
    ∀ (c : BuiltContext), isContainer c.extra = true →
    (∀ e ∈ es, e.1 ≠ [] ∧ (∀ s ∈ e.1, s.data ≠ [] ∧ '.' ∉ s.data)
      ∧ deserializeValue (serializeValue e.2) = e.2) →
    List.foldl buildStep c (es.map (fun e => (dotJoin "extra" e.1, serializeValue e.2)))
      = { c with extra := insertEntries c.extra es } := by
  induction es with
  | nil =>
    intro c _ _
    rw [List.map_nil, List.foldl_nil, insertEntries, List.foldl_nil]
  | cons e rest ih =>
    intro c hcont hconds
    obtain ⟨hnee, hsegs, hleaf⟩ := hconds e (by simp)
    rw [List.map_cons, List.foldl_cons]
    rw [buildStep_extra_entry c (isTruthy_of_container hcont) hnee hsegs]
    rw [hleaf]
    rw [ih _ (by rw [(setNestedValue_shape e.1 c.extra e.2).2]; exact hcont)
      (fun e2 he2 => hconds e2 (by simp [he2]))]
    rw [insertEntries_cons]

theorem foldl_cp_entries_start (e0 : List String × JSVal) (rest : List (List String × JSVal))
    (c : BuiltContext) (hcp : c.connectionParams = none)
    (hconds : ∀ e ∈ e0 :: rest, e.1 ≠ [] ∧ (∀ s ∈ e.1, s.data ≠ [] ∧ '.' ∉ s.data)
      ∧ deserializeValue (serializeValue e.2) = e.2) :
    List.foldl buildStep c
        ((e0 :: rest).map (fun e => (dotJoin "connectionParams" e.1, serializeValue e.2)))
      = { c with connectionParams := some (insertEntries (.vobj []) (e0 :: rest)) } := by
  obtain ⟨hnee, hsegs, hleaf⟩ := hconds e0 (by simp)
  rw [List.map_cons, List.foldl_cons]
  rw [buildStep_cp_entry c hnee hsegs]
  rw [show (match c.connectionParams with
      | some p => if isTruthy p then p else JSVal.vobj []
      | none => JSVal.vobj []) = JSVal.vobj [] from by rw [hcp]]
  rw [hleaf]
  rw [foldl_cp_entries rest _ (setNestedValue (.vobj []) e0.1 e0.2) rfl
    (by rw [(setNestedValue_shape e0.1 (.vobj []) e0.2).2]; rfl)
    (fun e2 he2 => hconds e2 (by simp [he2]))]
  rw [insertEntries_cons]

/-! #### Goodness of the ghost entries of a good value -/

theorem mem_fieldEntries {fs : List (String × JSVal)} {e : List String × JSVal} :
    e ∈ fieldEntries fs →
      ∃ k v0 e0, (k, v0) ∈ fs ∧ e0 ∈ entriesOf v0 ∧ e = (k :: e0.1, e0.2) := by
  induction fs with
  | nil =>
    intro he
    rw [fieldEntries] at he
    simp at he
  | cons p rest ih =>
    obtain ⟨k, v⟩ := p
    intro he
    rw [fieldEntries] at he
    rcases List.mem_append.mp he with he1 | he2
    · obtain ⟨e0, he0, heq⟩ := List.mem_map.mp he1
      exact ⟨k, v, e0, by simp, he0, heq.symm⟩
    · obtain ⟨k2, v2, e0, hmem, he0, heq⟩ := ih he2
      exact ⟨k2, v2, e0, List.mem_cons_of_mem _ hmem, he0, heq⟩

theorem mem_elemEntries {xs : List JSVal} :
    ∀ {i : Nat} {e : List String × JSVal}, e ∈ elemEntries xs i →
      ∃ j v0 e0, v0 ∈ xs ∧ e0 ∈ entriesOf v0 ∧ e = (natRepr j :: e0.1, e0.2) := by
  induction xs with
  | nil => intro i e he; rw [elemEntries] at he; simp at he
  | cons v rest ih =>
    intro i e he
    rw [elemEntries] at he
    rcases List.mem_append.mp he with he1 | he2
    · obtain ⟨e0, he0, heq⟩ := List.mem_map.mp he1
      exact ⟨i, v, e0, by simp, he0, heq.symm⟩
    · obtain ⟨j, v2, e0, hmem, he0, heq⟩ := ih he2
      exact ⟨j, v2, e0, List.mem_cons_of_mem _ hmem, he0, heq⟩

/-- Over a good value, every ghost entry has dot-free nonempty path segments
and a leaf on which the codec is the identity. -/
theorem entriesOf_good : ∀ {v : JSVal}, GoodVal v →
    ∀ e ∈ entriesOf v, (∀ s ∈ e.1, s.data ≠ [] ∧ '.' ∉ s.data)
      ∧ deserializeValue (serializeValue e.2) = e.2 := by
  intro v hv
  induction hv with
  | bool b =>
    intro e he
    rw [show entriesOf (.vbool b) = [([], .vbool b)] from by rw [entriesOf] <;> simp] at he
    simp at he
    rw [he]
    exact ⟨by simp, deserialize_serialize_bool b⟩
  | num n =>
    intro e he
    rw [show entriesOf (.vnum n) = [([], .vnum n)] from by rw [entriesOf] <;> simp] at he
    simp at he
    rw [he]
    exact ⟨by simp, deserialize_serialize_num n⟩
  | str s h =>
    intro e he
    rw [show entriesOf (.vstr s) = [([], .vstr s)] from by rw [entriesOf] <;> simp] at he
    simp at he
    rw [he]
    exact ⟨by simp, deserialize_serialize_str h⟩
  | nullv =>
    intro e he
    rw [show entriesOf (.vnull) = [([], .vnull)] from by rw [entriesOf] <;> simp] at he
    simp at he
    rw [he]
    exact ⟨by simp, deserialize_serialize_null⟩
  | undef =>
    intro e he
    rw [show entriesOf (.vundef) = [([], .vundef)] from by rw [entriesOf] <;> simp] at he
    simp at he
    rw [he]
    exact ⟨by simp, deserialize_serialize_undef⟩
  | obj fs hne hkeys hnodup hvals ih =>
    intro e he
    rw [entriesOf] at he
    obtain ⟨k, v0, e0, hmem, he0, heq⟩ := mem_fieldEntries he
    have hkg : goodKey k := hkeys (k, v0) hmem
    have h0 := ih (k, v0) hmem e0 he0
    rw [heq]
    refine ⟨?_, h0.2⟩
    intro s hs
    rcases List.mem_cons.mp hs with hs1 | hs2
    · rw [hs1]
      exact ⟨hkg.1, hkg.2.1⟩
    · exact h0.1 s hs2
  | arr xs hne hx ih =>
    intro e he
    rw [entriesOf] at he
    obtain ⟨j, v0, e0, hmem, he0, heq⟩ := mem_elemEntries he
    have h0 := ih v0 hmem e0 he0
    rw [heq]
    refine ⟨?_, h0.2⟩
    intro s hs
    rcases List.mem_cons.mp hs with hs1 | hs2
    · rw [hs1]
      have hidx := isArrayIndex_natRepr j
      simp only [isArrayIndex, Bool.and_eq_true, decide_eq_true_eq] at hidx
      exact ⟨hidx.1, natRepr_no_dot j⟩
    · exact h0.1 s hs2

/-- Nonemptiness and goodness of top-level field entries in the shape the fold
lemmas consume. -/
theorem fieldEntries_conds {fs : List (String × JSVal)} (hgf : GoodFields fs) :
    ∀ e ∈ fieldEntries fs, e.1 ≠ [] ∧ (∀ s ∈ e.1, s.data ≠ [] ∧ '.' ∉ s.data)
      ∧ deserializeValue (serializeValue e.2) = e.2 := by
  intro e he
  obtain ⟨h2, t, hp, _⟩ := fieldEntries_heads hgf.1 e he
  have hgood := entriesOf_good (GoodVal.obj fs (by
      intro habs
      rw [habs, fieldEntries] at he
      simp at he) hgf.1 hgf.2.1 hgf.2.2) e (by rw [entriesOf]; exact he)
  exact ⟨by rw [hp]; simp, hgood.1, hgood.2⟩

/-- Conversion of the string-level compressed entries of an object field list
into the ghost-entry form consumed by the fold lemmas. -/
theorem compress_part_conv (fs : List (String × JSVal)) (p : String) :
    (flattenObject (.vobj fs) p).map (fun e => (e.1, serializeValue e.2))
      = (fieldEntries fs).map (fun e => (dotJoin p e.1, serializeValue e.2)) := by
  rw [flatten_corr, List.map_map]
  rw [show entriesOf (.vobj fs) = fieldEntries fs from by rw [entriesOf]]
  rfl

/-- Claim C3, amended: rebuilding the compressed context reproduces the four
top-level protocol fields (connectionInitReceived, acknowledged,
connectionParams, extra; subscriptions excluded) whenever connectionParams is
undefined or a nonempty good object, and extra is a good object (possibly
empty).  Good means: every leaf is a boolean, an integer, null, undefined or a
string without the double-underscore tag shape; every container below the top
level is nonempty; every object key is nonempty, dot-free and non-numeric, and
keys are distinct within an object.  The original claim allowed arbitrary
string leaves and arbitrary nested containers; the counterexample shows the
restriction on strings is necessary. -/
theorem compress_build_roundTrip (c : WSContext)
    (hcp : c.connectionParams = .vundef ∨
      ∃ gs, c.connectionParams = .vobj gs ∧ gs ≠ [] ∧ GoodFields gs)
    (hex : ∃ fs, c.extra = .vobj fs ∧ GoodFields fs) :
    restrictedEq (buildContext (compressContext c)) c := by
  obtain ⟨fs, hexeq, hgfx⟩ := hex
  rw [buildContext, compressContext]
  rw [List.foldl_append, List.foldl_append]
  have hflags : List.foldl buildStep initialBuiltContext
      [("connectionInitReceived", serializeValue (.vbool c.connectionInitReceived)),
       ("acknowledged", serializeValue (.vbool c.acknowledged))]
      = { initialBuiltContext with
          connectionInitReceived := .vbool c.connectionInitReceived,
          acknowledged := .vbool c.acknowledged } := by
    rw [List.foldl_cons, List.foldl_cons, List.foldl_nil]
    rw [buildStep_flag_init, buildStep_flag_ack]
    rw [deserialize_serialize_bool, deserialize_serialize_bool]
  rw [hflags]
  have hextra : ∀ st : BuiltContext, st.extra = .vobj [] →
      List.foldl buildStep st
        (if isTruthy c.extra then
          (flattenObject c.extra "extra").map (fun e => (e.1, serializeValue e.2))
        else [])
      = { st with extra := .vobj fs } := by
    intro st hst
    rw [hexeq]
    rw [if_pos (by rfl)]
    rw [compress_part_conv fs "extra"]
    rw [foldl_extra_entries (fieldEntries fs) st (by rw [hst]; rfl)
      (fieldEntries_conds hgfx)]
    rw [hst]
    rw [show insertEntries (JSVal.vobj []) (fieldEntries fs) = .vobj ([] ++ fs) from
      rebuild_obj fs [] hgfx (fun p _ => rfl)]
    rw [List.nil_append]
  rcases hcp with hundef | ⟨gs, hcpeq, hgne, hgfg⟩
  · rw [hundef]
    rw [show (if isTruthy JSVal.vundef then
        (flattenObject JSVal.vundef "connectionParams").map
          (fun e => (e.1, serializeValue e.2)) else []) = [] from by rw [if_neg (by simp [isTruthy])]]
    rw [List.foldl_nil]
    rw [hextra _ rfl]
    exact ⟨rfl, rfl, by rw [builtParams, hundef]; rfl, by rw [hexeq]⟩
  · rw [hcpeq]
    rw [if_pos (by rfl)]
    rw [compress_part_conv gs "connectionParams"]
    have hesne : fieldEntries gs ≠ [] := by
      have := entriesOf_ne_nil (GoodVal.obj gs hgne hgfg.1 hgfg.2.1 hgfg.2.2)
      rw [show entriesOf (.vobj gs) = fieldEntries gs from by rw [entriesOf]] at this
      exact this
    obtain ⟨e0, rest0, hes⟩ := List.exists_cons_of_ne_nil hesne
    rw [hes]
    rw [foldl_cp_entries_start e0 rest0 _ rfl (hes ▸ fieldEntries_conds hgfg)]
    rw [← hes]
    rw [show insertEntries (JSVal.vobj []) (fieldEntries gs) = .vobj ([] ++ gs) from
      rebuild_obj gs [] hgfg (fun p _ => rfl)]
    rw [List.nil_append]
    rw [hextra _ rfl]
    exact ⟨rfl, rfl, by rw [builtParams, hcpeq]; rfl, by rw [hexeq]⟩

/-- Concrete context whose extra holds the plain string that happens to carry
the null type tag; the codec decodes it to null on rebuild. -/
def ctxTagString : WSContext :=
  { connectionInitReceived := false, acknowledged := false,
    connectionParams := .vundef, extra := .vobj [("note", .vstr "__null__")] }

/-- Claim C3 as frozen is false: the context ctxTagString has boolean flags,
undefined connectionParams and a plain string leaf in extra, yet rebuilding its
compression returns null in place of that string. -/
theorem C3_codec_roundtrip_counterexample :
    ¬ restrictedEq (buildContext (compressContext ctxTagString)) ctxTagString := by
  intro h
  have hx := h.2.2.2
  have hflat : flattenObject (.vobj [("note", .vstr "__null__")]) "extra"
      = [("extra" ++ "." ++ "note", .vstr "__null__")] := by
    rw [show flattenObject (.vobj [("note", JSVal.vstr "__null__")]) "extra"
        = flattenFields [("note", JSVal.vstr "__null__")] "extra" from by rw [flattenObject]]
    rw [flattenFields]
    rw [show flattenObject (JSVal.vstr "__null__") ("extra" ++ "." ++ "note")
        = [("extra" ++ "." ++ "note", JSVal.vstr "__null__")] from by
      rw [flattenObject] <;> simp]
    rw [flattenFields]
    simp
  have hcompress : compressContext ctxTagString
      = [("connectionInitReceived", "__boolean__false"),
         ("acknowledged", "__boolean__false"),
         ("extra" ++ "." ++ "note", "__null__")] := by
    simp only [compressContext, ctxTagString, isTruthy]
    rw [hflat]
    simp [serializeValue]
  rw [hcompress] at hx
  have hbuilt : (buildContext
      [("connectionInitReceived", "__boolean__false"),
       ("acknowledged", "__boolean__false"),
       ("extra" ++ "." ++ "note", "__null__")]).extra
      = .vobj [("note", .vnull)] := by rfl
  rw [hbuilt] at hx
  simp [ctxTagString] at hx

/-- Concrete well-formed context used to witness the amended round trip. -/
def ctxWitness : WSContext :=
  { connectionInitReceived := true, acknowledged := false,
    connectionParams := .vundef,
    extra := .vobj [("count", .vnum 42),
                    ("tags", .varr [.vstr "admin", .vstr "user"]),
                    ("note", .vnull)] }

theorem ctxWitness_goodFields : GoodFields
    [("count", JSVal.vnum 42),
     ("tags", JSVal.varr [JSVal.vstr "admin", JSVal.vstr "user"]),
     ("note", JSVal.vnull)] := by
  refine ⟨by decide, by decide, ?_⟩
  intro p hp
  simp only [List.mem_cons, List.not_mem_nil, or_false] at hp
  rcases hp with h | h | h
  · rw [h]
    exact GoodVal.num 42
  · rw [h]
    refine GoodVal.arr _ (by simp) ?_
    intro v hv
    simp only [List.mem_cons, List.not_mem_nil, or_false] at hv
    rcases hv with h2 | h2
    · rw [h2]
      exact GoodVal.str _ (by decide)
    · rw [h2]
      exact GoodVal.str _ (by decide)
  · rw [h]
    exact GoodVal.nullv

/-- Witness for the amended claim C3: the hypotheses hold at the concrete
context ctxWitness and the round trip follows by the amended theorem. -/
theorem compress_build_roundTrip_witness :
    (ctxWitness.connectionParams = .vundef ∨
      ∃ gs, ctxWitness.connectionParams = .vobj gs ∧ gs ≠ [] ∧ GoodFields gs) ∧
    (∃ fs, ctxWitness.extra = .vobj fs ∧ GoodFields fs) ∧
    restrictedEq (buildContext (compressContext ctxWitness)) ctxWitness :=
  ⟨Or.inl rfl, ⟨_, rfl, ctxWitness_goodFields⟩,
    compress_build_roundTrip ctxWitness (Or.inl rfl) ⟨_, rfl, ctxWitness_goodFields⟩⟩

/-! ### Redis store model

Redis state is three insertion-ordered association maps: sets (the registry
namespaces), strings (subscribe-payload records) and hashes (context records).
Set-member enumeration order is modelled as insertion order, and Redis's
behaviour of deleting a set key when its last member is removed is preserved. -/

/-- Generic association-list lookup keyed by strings. -/
def alookup {α : Type} : List (String × α) → String → Option α
  | [], _ => none
  | (k2, v) :: rest, k => if k2 = k then some v else alookup rest k

/-- Generic association-list write: overwrite in place or append. -/
def aset {α : Type} : List (String × α) → String → α → List (String × α)
  | [], k, v => [(k, v)]
  | (k2, w) :: rest, k, v => if k2 = k then (k2, v) :: rest else (k2, w) :: aset rest k v

/-- Generic association-list key removal. -/
def aremove {α : Type} : List (String × α) → String → List (String × α)
  | [], _ => []
  | (k2, w) :: rest, k => if k2 = k then aremove rest k else (k2, w) :: aremove rest k

structure RedisState where
  sets : List (String × List String)
  strings : List (String × String)
  hashes : List (String × List (String × String))

def emptyRedis : RedisState := { sets := [], strings := [], hashes := [] }

/-- SMEMBERS: the members of a set, empty for a missing key. -/
def sMembers (st : RedisState) (k : String) : List String :=
  (alookup st.sets k).getD []

/-- SADD of one member: appends when absent, otherwise no effect. -/
def sAdd (st : RedisState) (k m : String) : RedisState :=
  let cur := sMembers st k
  if m ∈ cur then st else { st with sets := aset st.sets k (cur ++ [m]) }

/-- SREM of one member; a set that becomes empty is deleted, as in Redis. -/
def sRem (st : RedisState) (k m : String) : RedisState :=
  match alookup st.sets k with
  | none => st
  | some ms =>
    let ms2 := ms.filter (fun x => x ≠ m)
    if ms2.isEmpty then { st with sets := aremove st.sets k }
    else { st with sets := aset st.sets k ms2 }

/-- DEL of a set key. -/
def delSet (st : RedisState) (k : String) : RedisState :=
  { st with sets := aremove st.sets k }

/-- EXISTS of a set key (isRegistered in the source compares the count to 1). -/
def setKeyExists (st : RedisState) (k : String) : Bool :=
  (alookup st.sets k).isSome

/-- GET of a string key. -/
def redisGet (st : RedisState) (k : String) : Option String :=
  alookup st.strings k

/-- SET of a string key. -/
def redisSet (st : RedisState) (k v : String) : RedisState :=
  { st with strings := aset st.strings k v }

/-- HSET with an object of fields: sets the given fields, leaving any other
stored field of the hash in place (Redis hash-merge semantics). -/
def hSetPairs (st : RedisState) (k : String) (pairs : List (String × String)) : RedisState :=
  let cur := (alookup st.hashes k).getD []
  { st with hashes := aset st.hashes k (pairs.foldl (fun h kv => aset h kv.1 kv.2) cur) }

/-- HDEL of a list of fields. -/
def hDelFields (st : RedisState) (k : String) (fields : List String) : RedisState :=
  let cur := (alookup st.hashes k).getD []
  { st with hashes := (aset st.hashes k
      (cur.filter (fun kv => decide (kv.1 ∉ fields)))) }

/-- HGETALL: all fields of a hash, empty for a missing key. -/
def hGetAll (st : RedisState) (k : String) : List (String × String) :=
  (alookup st.hashes k).getD []

/-! ### The pub/sub registry (GraphQLLambdaPubsub in pubsub/index.ts) -/

/-- Options of the pub/sub constructor; only keyPrefix matters for state. -/
structure PubsubOptions where
  keyPrefix : Option String

/-- Key construction of the registry: prefix, type namespace, id, joined with
colons; the prefix defaults to pubsub. -/
def key (opts : PubsubOptions) (type id : String) : String :=
  opts.keyPrefix.getD "pubsub" ++ ":" ++ type ++ ":" ++ id

/-- Key of the per-connection context hash (utils key.connectionContext). -/
def connectionContextKey (connectionId : String) : String :=
  "graphql:connection:" ++ connectionId

/-- Key of the verbatim subscribe-payload record (utils key.subscriptionPayload). -/
def subscriptionPayloadKey (subscriptionId : String) : String :=
  "graphql:subscription:" ++ subscriptionId

/-- Effects of REGISTER_SUBSCRIPTION_REDIS_LUA_SCRIPT: add the subscription key
to the connection set, add the channel tuple to every topic set, and add every
topic key to the subscription set.  With an empty topic list the final SADD
raises a wrong-arity error after the earlier commands have taken effect; the
state effect equals adding nothing. -/
def registerScript (st : RedisState) (subKey connKey : String)
    (topicKeys : List String) : RedisState :=
  let st1 := sAdd st connKey subKey
  let tuple := connKey ++ "#" ++ subKey
  let st2 := topicKeys.foldl (fun s tk => sAdd s tk tuple) st1
  topicKeys.foldl (fun s tk => sAdd s subKey tk) st2

/-- The register callback of the channel returned by subscribe: builds the
namespaced keys and runs the registration script. -/
def register (opts : PubsubOptions) (topics : List String) (st : RedisState)
    (connectionId subscriptionId : String) : RedisState :=
  registerScript st (key opts "sub" subscriptionId) (key opts "conn" connectionId)
    (topics.map (fun t => key opts "topic" t))

/-- Effects of UNREGISTER_SUBSCRIPTION_REDIS_LUA_SCRIPT. -/
def unregisterScript (st : RedisState) (subKey connKey : String) : RedisState :=
  let topicKeys := sMembers st subKey
  let tuple := connKey ++ "#" ++ subKey
  let st1 := topicKeys.foldl (fun s tk => sRem s tk tuple) st
  let st2 := sRem st1 connKey subKey
  delSet st2 subKey

/-- Effects of DISCONNECT_CONNECTION_REDIS_LUA_SCRIPT: for every subscription
key in the connection set, remove the channel tuple from every topic in that
subscription's set and delete the subscription key; finally delete the
connection set.  No key outside the set namespace is touched. -/
def disconnectScript (st : RedisState) (connKey : String) : RedisState :=
  let subKeys := sMembers st connKey
  let st1 := subKeys.foldl (fun s subKey =>
    let tuple := connKey ++ "#" ++ subKey
    let topicKeys := sMembers s subKey
    let s2 := topicKeys.foldl (fun s3 tk => sRem s3 tk tuple) s
    delSet s2 subKey) st
  delSet st1 connKey

/-- The pubsub disconnect method: runs the disconnect script on the namespaced
connection key. -/
def pubsubDisconnect (opts : PubsubOptions) (st : RedisState)
    (connectionId : String) : RedisState :=
  disconnectScript st (key opts "conn" connectionId)

/-- Parse one stored channel tuple as getChannels does: split on the hash sign,
map extractId over the parts, take the first two, and drop the member when
either id is falsy (empty or missing). -/
def parseChannel (member : String) : Option (String × String) :=
  match (splitChar '#' member.data).map (fun part => extractId (String.mk part)) with
  | a :: b :: _ => if a = "" || b = "" then none else some (a, b)
  | _ => none

/-- getChannels: read the topic set and parse each member, silently dropping
malformed ones. -/
def getChannels (opts : PubsubOptions) (st : RedisState) (topic : String) :
    List (String × String) :=
  (sMembers st (key opts "topic" topic)).filterMap parseChannel

/-- getConnectionSubscriptions: members of the connection set with the prefix
stripped, dropping falsy ids. -/
def getConnectionSubscriptions (opts : PubsubOptions) (st : RedisState)
    (connectionId : String) : List String :=
  ((sMembers st (key opts "conn" connectionId)).map extractId).filter (fun s => s ≠ "")

/-- isRegistered: existence of the subscription set key. -/
def isRegistered (opts : PubsubOptions) (st : RedisState) (subscriptionId : String) : Bool :=
  setKeyExists st (key opts "sub" subscriptionId)

/-! ### Fan-out publisher (publish in pubsub/index.ts) -/

/-- Outcome of one PostToConnection send as observed through allSettled: either
fulfilled, or rejected with the optional HTTP status carried on the error. -/
inductive SendOutcome where
  | ok
  | failWith (status : Option Nat)
deriving DecidableEq

/-- Observable actions of one publish call. -/
inductive PubAction where
  | send (connectionId : String) (frame : JSVal)
  | disconnectCall (connectionId : String)
  | logWarn

/-- executePayload when no schema has been registered: skip validation and wrap
the published payload as the execution result data.  The schema-aware branch
re-executes through the external GraphQL executor and is out of scope. -/
def executePayload (payload : JSVal) : JSVal :=
  .vobj [("data", payload)]

/-- encodePayload: the next frame for a subscription.  JSON serialization is
modelled structurally: the frame object itself rather than its byte string. -/
def encodePayload (subscriptionId : String) (payload : JSVal) : JSVal :=
  .vobj [("id", .vstr subscriptionId), ("type", .vstr "next"), ("payload", payload)]

/-- One disconnect cleanup attempt during publish; the oracle says whether the
underlying Redis call rejects. -/
def disconnectAttempt (opts : PubsubOptions) (st : RedisState) (connectionId : String)
    (fails : Bool) : Except Unit RedisState :=
  if fails then .error () else .ok (pubsubDisconnect opts st connectionId)

/-- The result loop of publish over the settled send results: a rejection whose
status is 410 triggers a disconnect whose own rejection is swallowed by the
attached catch; any other rejection is logged; fulfilled sends need nothing. -/
def publishResultLoop (opts : PubsubOptions) :
    List (String × String) → (Nat → SendOutcome) → Nat → RedisState → (String → Bool) →
      RedisState × List PubAction
  | [], _, _, st, _ => (st, [])
  | ch :: rest, outcome, i, st, discFails =>
    match outcome i with
    | .ok => publishResultLoop opts rest outcome (i + 1) st discFails
    | .failWith status =>
      if status = some 410 then
        let st2 := match disconnectAttempt opts st ch.1 (discFails ch.1) with
          | .ok s => s
          | .error _ => st
        let r := publishResultLoop opts rest outcome (i + 1) st2 discFails
        (r.1, .disconnectCall ch.1 :: r.2)
      else
        let r := publishResultLoop opts rest outcome (i + 1) st discFails
        (r.1, .logWarn :: r.2)

/-- publish with no schema registered: resolve the channels, issue one framed
send per channel in channel order, then walk the settled results.  The return
is an Except so that raising is representable: per-delivery failures are
consumed by allSettled and by the catch on the cleanup. -/
def publish (opts : PubsubOptions) (st : RedisState) (topic : String) (payload : JSVal)
    (outcome : Nat → SendOutcome) (discFails : String → Bool) :
    Except Unit (RedisState × List PubAction) :=
  let channels := getChannels opts st topic
  let sendActs := channels.map
    (fun ch => PubAction.send ch.1 (encodePayload ch.2 (executePayload payload)))
  let r := publishResultLoop opts channels outcome 0 st discFails
  .ok (r.1, sendActs ++ r.2)

/-! #### Generic association-list lemmas -/

theorem alookup_aset_same {α : Type} (l : List (String × α)) (k : String) (v : α) :
    alookup (aset l k v) k = some v := by
  induction l with
  | nil => simp [aset, alookup]
  | cons p rest ih =>
    obtain ⟨k2, w⟩ := p
    by_cases h : k2 = k
    · simp [aset, alookup, h]
    · simp [aset, alookup, h, ih]

theorem alookup_aset_other {α : Type} (l : List (String × α)) {k k2 : String}
    (h : ¬k = k2) (v : α) : alookup (aset l k v) k2 = alookup l k2 := by
  induction l with
  | nil => simp [aset, alookup, h]
  | cons p rest ih =>
    obtain ⟨k3, w⟩ := p
    by_cases h2 : k3 = k
    · rw [h2]
      simp [aset, alookup, h, ih]
    · simp [aset, alookup, h2, ih]

theorem alookup_aremove_same {α : Type} (l : List (String × α)) (k : String) :
    alookup (aremove l k) k = none := by
  induction l with
  | nil => simp [aremove, alookup]
  | cons p rest ih =>
    obtain ⟨k2, w⟩ := p
    by_cases h : k2 = k
    · simp [aremove, alookup, h, ih]
    · simp [aremove, alookup, h, ih]

theorem alookup_aremove_other {α : Type} (l : List (String × α)) {k k2 : String}
    (h : ¬k = k2) : alookup (aremove l k) k2 = alookup l k2 := by
  induction l with
  | nil => simp [aremove, alookup]
  | cons p rest ih =>
    obtain ⟨k3, w⟩ := p
    by_cases h2 : k3 = k
    · rw [h2]
      simp [aremove, alookup, h, fun hc : k = k2 => h hc, ih]
    · simp [aremove, alookup, h2, ih]

theorem alookup_mem {α : Type} {l : List (String × α)} {k : String} {v : α}
    (h : alookup l k = some v) : (k, v) ∈ l := by
  induction l with
  | nil => simp [alookup] at h
  | cons p rest ih =>
    obtain ⟨k2, w⟩ := p
    by_cases h2 : k2 = k
    · rw [alookup, if_pos h2] at h
      cases h
      rw [h2]
      simp
    · rw [alookup, if_neg h2] at h
      exact List.mem_cons_of_mem _ (ih h)

/-! #### Set-operation lemmas -/

theorem sMembers_sAdd_other (st : RedisState) {k k2 : String} (h : ¬k = k2) (m : String) :
    sMembers (sAdd st k m) k2 = sMembers st k2 := by
  rw [sAdd]
  by_cases hm : m ∈ sMembers st k
  · rw [if_pos hm]
  · rw [if_neg hm]
    rw [show sMembers { st with sets := aset st.sets k (sMembers st k ++ [m]) } k2
        = (alookup (aset st.sets k (sMembers st k ++ [m])) k2).getD [] from rfl]
    rw [alookup_aset_other st.sets h]
    rfl

theorem sMembers_sAdd_same (st : RedisState) (k m : String) :
    sMembers (sAdd st k m) k
      = if m ∈ sMembers st k then sMembers st k else sMembers st k ++ [m] := by
  rw [sAdd]
  by_cases hm : m ∈ sMembers st k
  · rw [if_pos hm, if_pos hm]
  · rw [if_neg hm, if_neg hm]
    rw [show sMembers { st with sets := aset st.sets k (sMembers st k ++ [m]) } k
        = (alookup (aset st.sets k (sMembers st k ++ [m])) k).getD [] from rfl]
    rw [alookup_aset_same]
    rfl

theorem mem_sMembers_sAdd_self (st : RedisState) (k m : String) :
    m ∈ sMembers (sAdd st k m) k := by
  rw [sMembers_sAdd_same]
  by_cases hm : m ∈ sMembers st k
  · rw [if_pos hm]
    exact hm
  · rw [if_neg hm]
    simp

theorem mem_sMembers_sAdd_mono {st : RedisState} {k m : String}
    (h : m ∈ sMembers st k) (k2 m2 : String) : m ∈ sMembers (sAdd st k2 m2) k := by
  by_cases hk : k2 = k
  · rw [hk, sMembers_sAdd_same]
    by_cases hm : m2 ∈ sMembers st k
    · rw [if_pos hm]
      exact h
    · rw [if_neg hm]
      exact List.mem_append_left _ h
  · rw [sMembers_sAdd_other st hk]
    exact h

theorem sAdd_no_op {st : RedisState} {k m : String} (h : m ∈ sMembers st k) :
    sAdd st k m = st := by
  rw [sAdd, if_pos h]

/-! #### Idempotence of the registration script (claim C5) -/

theorem fold_mem_mono {m k : String} {st : RedisState} (h : m ∈ sMembers st k)
    (f : RedisState → String → RedisState)
    (hf : ∀ s x, m ∈ sMembers s k → m ∈ sMembers (f s x) k) :
    ∀ (tks : List String), m ∈ sMembers (tks.foldl f st) k := by
  intro tks
  induction tks generalizing st with
  | nil => exact h
  | cons t rest ih =>
    rw [List.foldl_cons]
    exact ih (hf st t h)

theorem fold_sAdd_tuple_mem (m : String) :
    ∀ (tks : List String) (s : RedisState) (tk : String), tk ∈ tks →
      m ∈ sMembers (tks.foldl (fun s2 t => sAdd s2 t m) s) tk := by
  intro tks
  induction tks with
  | nil => intro s tk h; simp at h
  | cons t rest ih =>
    intro s tk h
    rw [List.foldl_cons]
    rcases List.mem_cons.mp h with h1 | h2
    · subst h1
      exact fold_mem_mono (mem_sMembers_sAdd_self s tk m) (fun s2 t2 => sAdd s2 t2 m)
        (fun s2 x hx => mem_sMembers_sAdd_mono hx x m) rest
    · exact ih (sAdd s t m) tk h2

theorem fold_sAdd_member_mem (k : String) :
    ∀ (tks : List String) (s : RedisState) (tk : String), tk ∈ tks →
      tk ∈ sMembers (tks.foldl (fun s2 t => sAdd s2 k t) s) k := by
  intro tks
  induction tks with
  | nil => intro s tk h; simp at h
  | cons t rest ih =>
    intro s tk h
    rw [List.foldl_cons]
    rcases List.mem_cons.mp h with h1 | h2
    · subst h1
      exact fold_mem_mono (mem_sMembers_sAdd_self s k tk) (fun s2 t2 => sAdd s2 k t2)
        (fun s2 x hx => mem_sMembers_sAdd_mono hx k x) rest
    · exact ih (sAdd s k t) tk h2

theorem fold_sAdd_tuple_noop (m : String) :
    ∀ (tks : List String) (s : RedisState), (∀ tk ∈ tks, m ∈ sMembers s tk) →
      tks.foldl (fun s2 t => sAdd s2 t m) s = s := by
  intro tks
  induction tks with
  | nil => intro s _; rfl
  | cons t rest ih =>
    intro s h
    rw [List.foldl_cons, sAdd_no_op (h t (by simp))]
    exact ih s (fun tk htk => h tk (List.mem_cons_of_mem _ htk))

theorem fold_sAdd_member_noop (k : String) :
    ∀ (tks : List String) (s : RedisState), (∀ tk ∈ tks, tk ∈ sMembers s k) →
      tks.foldl (fun s2 t => sAdd s2 k t) s = s := by
  intro tks
  induction tks with
  | nil => intro s _; rfl
  | cons t rest ih =>
    intro s h
    rw [List.foldl_cons, sAdd_no_op (h t (by simp))]
    exact ih s (fun tk htk => h tk (List.mem_cons_of_mem _ htk))

theorem registerScript_idem (st : RedisState) (subKey connKey : String)
    (topicKeys : List String) :
    registerScript (registerScript st subKey connKey topicKeys) subKey connKey topicKeys
      = registerScript st subKey connKey topicKeys := by
  have hsub : subKey ∈ sMembers (registerScript st subKey connKey topicKeys) connKey := by
    rw [registerScript]
    refine fold_mem_mono (fold_mem_mono (mem_sMembers_sAdd_self st connKey subKey) _ ?_ _) _ ?_ _
    · intro s x h
      exact mem_sMembers_sAdd_mono h x _
    · intro s x h
      exact mem_sMembers_sAdd_mono h subKey x
  have htuple : ∀ tk ∈ topicKeys,
      (connKey ++ "#" ++ subKey) ∈ sMembers (registerScript st subKey connKey topicKeys) tk := by
    intro tk htk
    rw [registerScript]
    refine fold_mem_mono (fold_sAdd_tuple_mem _ topicKeys _ tk htk) _ ?_ _
    intro s x h
    exact mem_sMembers_sAdd_mono h subKey x
  have hmember : ∀ tk ∈ topicKeys,
      tk ∈ sMembers (registerScript st subKey connKey topicKeys) subKey := by
    intro tk htk
    rw [registerScript]
    exact fold_sAdd_member_mem subKey topicKeys _ tk htk
  conv in registerScript (registerScript st subKey connKey topicKeys) subKey connKey topicKeys =>
    rw [registerScript]
  rw [sAdd_no_op hsub, fold_sAdd_tuple_noop _ topicKeys _ htuple,
    fold_sAdd_member_noop _ topicKeys _ hmember]

/-- Repeated application of a state transformer. -/
def applyTimes {α : Type} (f : α → α) : Nat → α → α
  | 0, a => a
  | n + 1, a => applyTimes f n (f a)

/-- Claim C5: the channel registration transaction is idempotent.  Applying
register with the same connection id, subscription id and topic list k times,
for any k at least one, leaves exactly the registry state of a single
application, from any starting state. -/
theorem C5_register_idempotent (opts : PubsubOptions) (topics : List String)
    (cid sid : String) (st : RedisState) (k : Nat) (hk : 1 ≤ k) :
    applyTimes (fun s => register opts topics s cid sid) k st
      = register opts topics st cid sid := by
  induction k generalizing st with
  | zero => omega
  | succ n ih =>
    rw [applyTimes]
    cases Nat.eq_zero_or_pos n with
    | inl h0 =>
      rw [h0]
      rfl
    | inr hpos =>
      rw [ih (register opts topics st cid sid) hpos]
      exact registerScript_idem st (key opts "sub" sid) (key opts "conn" cid)
        (topics.map (fun t => key opts "topic" t))

/-- Witness for claim C5 at a concrete input: three applications from the empty
store coincide with one. -/
theorem C5_register_idempotent_witness :
    1 ≤ 3 ∧ applyTimes (fun s => register ⟨none⟩ ["t1"] s "c1" "s1") 3 emptyRedis
      = register ⟨none⟩ ["t1"] emptyRedis "c1" "s1" :=
  ⟨by decide, C5_register_idempotent ⟨none⟩ ["t1"] "c1" "s1" emptyRedis 3 (by decide)⟩

/-! #### Key algebra of the registry -/

theorem stringDataInj {x y : String} (h : x.data = y.data) : x = y := by
  cases x
  cases y
  exact congrArg String.mk h

theorem key_data (opts : PubsubOptions) (t id : String) :
    (key opts t id).data
      = (opts.keyPrefix.getD "pubsub").data ++ ':' :: (t.data ++ ':' :: id.data) := by
  rw [key]
  simp [String.data_append]

theorem extractId_key (opts : PubsubOptions) (t : String) {id : String} (h : ':' ∉ id.data) :
    extractId (key opts t id) = id := by
  rw [key]
  exact extractId_append h

theorem key_no_hash {opts : PubsubOptions} {t id : String}
    (hkp : '#' ∉ (opts.keyPrefix.getD "pubsub").data) (ht : '#' ∉ t.data)
    (hid : '#' ∉ id.data) : '#' ∉ (key opts t id).data := by
  rw [key_data]
  intro hmem
  rcases List.mem_append.mp hmem with h1 | h2
  · exact hkp h1
  · rcases List.mem_cons.mp h2 with h3 | h4
    · exact absurd h3 (by decide)
    · rcases List.mem_append.mp h4 with h5 | h6
      · exact ht h5
      · rcases List.mem_cons.mp h6 with h7 | h8
        · exact absurd h7 (by decide)
        · exact hid h8

theorem key_ne_type {opts : PubsubOptions} {t1 t2 x y : String} {c1 c2 : Char}
    {r1 r2 : List Char} (h1 : t1.data = c1 :: r1) (h2 : t2.data = c2 :: r2)
    (hne : c1 ≠ c2) : ¬key opts t1 x = key opts t2 y := by
  intro he
  have hd := congrArg String.data he
  rw [key_data, key_data, h1, h2] at hd
  have h3 := List.append_cancel_left hd
  simp only [List.cons.injEq, List.cons_append] at h3
  exact hne h3.2.1

theorem key_ne_id {opts : PubsubOptions} {t x y : String} (h : ¬x = y) :
    ¬key opts t x = key opts t y := by
  intro he
  have hd := congrArg String.data he
  rw [key_data, key_data] at hd
  have h2 := List.append_cancel_left hd
  simp only [List.cons.injEq, true_and] at h2
  have h3 := List.append_cancel_left h2
  simp only [List.cons.injEq, true_and] at h3
  exact h (stringDataInj h3)

theorem append_hash_inj {a1 b1 a2 b2 : List Char} (h1 : '#' ∉ a1) (h2 : '#' ∉ a2)
    (he : a1 ++ '#' :: b1 = a2 ++ '#' :: b2) : a1 = a2 ∧ b1 = b2 := by
  have e1 := breakAtChar_append_sep h1 b1
  rw [he, breakAtChar_append_sep h2 b2] at e1
  simp only [Option.some.injEq, Prod.mk.injEq] at e1
  exact ⟨e1.1.symm, e1.2.symm⟩

theorem parseChannel_append {a b : String} (ha : '#' ∉ a.data) (hb : '#' ∉ b.data)
    (hane : extractId a ≠ "") (hbne : extractId b ≠ "") :
    parseChannel (a ++ "#" ++ b) = some (extractId a, extractId b) := by
  rw [parseChannel]
  have hd : (a ++ "#" ++ b).data = a.data ++ '#' :: b.data := by
    simp [String.data_append]
  rw [hd]
  have hsplit : splitChar '#' (a.data ++ '#' :: b.data) = [a.data, b.data] := by
    rw [splitChar, splitCharAux_append_sep ha, splitCharAux_no_sep hb]
    simp
  rw [hsplit, List.map_cons, List.map_cons, List.map_nil]
  show (if extractId (String.mk a.data) = "" || extractId (String.mk b.data) = ""
    then none else some (extractId (String.mk a.data), extractId (String.mk b.data))) = _
  rw [show String.mk a.data = a from rfl, show String.mk b.data = b from rfl]
  rw [if_neg (by simp [hane, hbne])]

/-- Claim C9 as frozen is false at the empty connection id, which contains
neither a hash sign nor a colon yet parses to no pair at all: the tuple built
for it is dropped by the falsy-id check of getChannels. -/
theorem C9_channel_tuple_counterexample :
    parseChannel (key ⟨none⟩ "conn" "" ++ "#" ++ key ⟨none⟩ "sub" "s1")
      ≠ some ("", "s1") := by decide

/-- Claim C9, amended: for every nonempty connection id and subscription id in
which neither the hash sign nor the colon occurs, parsing the stored tuple
built by the registration script recovers exactly the pair; the restriction is
genuine, since the id a:b parses back as b, a different pair, and the empty id
yields no pair at all. -/
theorem C9_channel_tuple_roundtrip (opts : PubsubOptions)
    (hkp : '#' ∉ (opts.keyPrefix.getD "pubsub").data) :
    (∀ cid sid : String, cid ≠ "" → sid ≠ "" →
      '#' ∉ cid.data → ':' ∉ cid.data → '#' ∉ sid.data → ':' ∉ sid.data →
      parseChannel (key opts "conn" cid ++ "#" ++ key opts "sub" sid) = some (cid, sid)) ∧
    parseChannel (key ⟨none⟩ "conn" "a:b" ++ "#" ++ key ⟨none⟩ "sub" "s1")
      = some ("b", "s1") ∧ ("b" : String) ≠ "a:b" := by
  refine ⟨?_, by decide, by decide⟩
  intro cid sid hc hs hc1 hc2 hs1 hs2
  have ha := @key_no_hash opts "conn" cid hkp (by decide) hc1
  have hb := @key_no_hash opts "sub" sid hkp (by decide) hs1
  rw [parseChannel_append ha hb
    (by rw [extractId_key opts "conn" hc2]; exact hc)
    (by rw [extractId_key opts "sub" hs2]; exact hs)]
  rw [extractId_key opts "conn" hc2, extractId_key opts "sub" hs2]

/-- Witness for the amended claim C9 at concrete clean ids. -/
theorem C9_channel_tuple_roundtrip_witness :
    parseChannel (key ⟨none⟩ "conn" "c1" ++ "#" ++ key ⟨none⟩ "sub" "s1")
      = some ("c1", "s1") :=
  (C9_channel_tuple_roundtrip ⟨none⟩ (by decide)).1 "c1" "s1"
    (by decide) (by decide) (by decide) (by decide) (by decide) (by decide)

/-! #### Fan-out of publish over a concretely registered topic (claims C4, C6) -/

theorem key_conn_ne_topic (opts : PubsubOptions) (x y : String) :
    ¬key opts "conn" x = key opts "topic" y :=
  @key_ne_type opts "conn" "topic" x y 'c' 't' "onn".data "opic".data rfl rfl (by decide)

theorem key_sub_ne_topic (opts : PubsubOptions) (x y : String) :
    ¬key opts "sub" x = key opts "topic" y :=
  @key_ne_type opts "sub" "topic" x y 's' 't' "ub".data "opic".data rfl rfl (by decide)

theorem key_conn_ne_sub (opts : PubsubOptions) (x y : String) :
    ¬key opts "conn" x = key opts "sub" y :=
  @key_ne_type opts "conn" "sub" x y 'c' 's' "onn".data "ub".data rfl rfl (by decide)

theorem data_append_hash (a b : String) : (a ++ "#" ++ b).data = a.data ++ '#' :: b.data := by
  simp [String.data_append]

theorem tuple_ne {opts : PubsubOptions} {c1 c2 : String} (s1 s2 : String)
    (hkp : '#' ∉ (opts.keyPrefix.getD "pubsub").data)
    (hc1 : '#' ∉ c1.data) (hc2 : '#' ∉ c2.data) (hne : ¬c1 = c2) :
    ¬(key opts "conn" c1 ++ "#" ++ key opts "sub" s1
        = key opts "conn" c2 ++ "#" ++ key opts "sub" s2) := by
  intro he
  have hd := congrArg String.data he
  rw [data_append_hash, data_append_hash] at hd
  have h1 := append_hash_inj (key_no_hash hkp (by decide) hc1)
    (key_no_hash hkp (by decide) hc2) hd
  exact key_ne_id hne (stringDataInj h1.1)

/-- Parsing the channel tuple of a clean connection/subscription id pair. -/
theorem parseChannel_tuple {opts : PubsubOptions} {cid sid : String}
    (hkp : '#' ∉ (opts.keyPrefix.getD "pubsub").data)
    (hce : ¬cid = "") (hse : ¬sid = "")
    (hch : '#' ∉ cid.data) (hcc : ':' ∉ cid.data)
    (hsh : '#' ∉ sid.data) (hsc : ':' ∉ sid.data) :
    parseChannel (key opts "conn" cid ++ "#" ++ key opts "sub" sid) = some (cid, sid) := by
  rw [parseChannel_append (key_no_hash hkp (by decide) hch) (key_no_hash hkp (by decide) hsh)
    (by rw [extractId_key opts "conn" hcc]; exact hce)
    (by rw [extractId_key opts "sub" hsc]; exact hse)]
  rw [extractId_key opts "conn" hcc, extractId_key opts "sub" hsc]

/-- Unfolding of register at a one-topic list. -/
theorem register_one (opts : PubsubOptions) (t : String) (st : RedisState)
    (cid sid : String) :
    register opts [t] st cid sid
      = sAdd (sAdd (sAdd st (key opts "conn" cid) (key opts "sub" sid))
          (key opts "topic" t) (key opts "conn" cid ++ "#" ++ key opts "sub" sid))
          (key opts "sub" sid) (key opts "topic" t) := rfl

/-- Topic-set content after registering two subscriptions on the same topic from
the empty store: exactly the two channel tuples, in registration order. -/
theorem register2_topic_members (opts : PubsubOptions)
    (hkp : '#' ∉ (opts.keyPrefix.getD "pubsub").data) {c1 c2 : String} (s1 s2 t : String)
    (hcc : ¬c1 = c2) (hc1h : '#' ∉ c1.data) (hc2h : '#' ∉ c2.data) :
    sMembers (register opts [t] (register opts [t] emptyRedis c1 s1) c2 s2)
        (key opts "topic" t)
      = [key opts "conn" c1 ++ "#" ++ key opts "sub" s1,
         key opts "conn" c2 ++ "#" ++ key opts "sub" s2] := by
  have hA : sMembers (register opts [t] emptyRedis c1 s1) (key opts "topic" t)
      = [key opts "conn" c1 ++ "#" ++ key opts "sub" s1] := by
    rw [register_one]
    rw [sMembers_sAdd_other _ (key_sub_ne_topic opts s1 t)]
    rw [sMembers_sAdd_same]
    rw [sMembers_sAdd_other _ (key_conn_ne_topic opts c1 t)]
    simp [sMembers, emptyRedis, alookup]
  conv_lhs => rw [register_one opts t (register opts [t] emptyRedis c1 s1) c2 s2]
  rw [sMembers_sAdd_other _ (key_sub_ne_topic opts s2 t)]
  rw [sMembers_sAdd_same]
  rw [sMembers_sAdd_other _ (key_conn_ne_topic opts c2 t)]
  rw [hA]
  have hne : ¬((key opts "conn" c2 ++ "#" ++ key opts "sub" s2)
      ∈ [key opts "conn" c1 ++ "#" ++ key opts "sub" s1]) := by
    simp only [List.mem_singleton]
    exact fun he => tuple_ne s2 s1 hkp hc2h hc1h (fun e => hcc e.symm) he
  rw [if_neg hne]
  rfl

theorem publishResultLoop_all_ok (opts : PubsubOptions) :
    ∀ (chs : List (String × String)) (i : Nat) (st : RedisState)
      (discFails : String → Bool),
      publishResultLoop opts chs (fun _ => .ok) i st discFails = (st, []) := by
  intro chs
  induction chs with
  | nil =>
    intro i st d
    rfl
  | cons ch rest ih =>
    intro i st d
    show publishResultLoop opts rest (fun _ => .ok) (i + 1) st d = (st, [])
    exact ih (i + 1) st d

/-- When every send fulfils, publish resolves to the unchanged store and exactly
the per-channel framed sends, in channel order. -/
theorem publish_all_ok (opts : PubsubOptions) (st : RedisState) (topic : String)
    (payload : JSVal) (discFails : String → Bool) :
    publish opts st topic payload (fun _ => .ok) discFails
      = .ok (st, (getChannels opts st topic).map
          (fun ch => PubAction.send ch.1 (encodePayload ch.2 (executePayload payload)))) := by
  show Except.ok
      ((publishResultLoop opts (getChannels opts st topic) (fun _ => .ok) 0 st discFails).1,
        (getChannels opts st topic).map
          (fun ch => PubAction.send ch.1 (encodePayload ch.2 (executePayload payload)))
          ++ (publishResultLoop opts (getChannels opts st topic)
                (fun _ => .ok) 0 st discFails).2) = _
  rw [publishResultLoop_all_ok]
  simp

/-- Whether an action is a gateway send to the given connection. -/
def isSendTo (cid : String) : PubAction → Bool
  | .send c _ => c = cid
  | _ => false

/-- Number of gateway sends to a connection in an action trace. -/
def sendsTo (acts : List PubAction) (cid : String) : Nat :=
  (acts.filter (isSendTo cid)).length

/-- Claim C4: with no schema registered, after registering (c1,s1) and (c2,s2)
on topic t from the empty store, publishing a payload on t with every delivery
fulfilled issues exactly the two framed sends, the first to c1 carrying
id s1, type next and payload wrapping data, the second to c2 with id s2,
and each connection receives exactly one send; the ids are nonempty and free of
the hash and colon delimiters, as the key grammar requires. -/
theorem C4_publish_two_subscribers (opts : PubsubOptions)
    (hkp : '#' ∉ (opts.keyPrefix.getD "pubsub").data)
    (c1 c2 s1 s2 t : String) (payload : JSVal) (hcc : ¬c1 = c2)
    (hc1e : ¬c1 = "") (hc2e : ¬c2 = "") (hs1e : ¬s1 = "") (hs2e : ¬s2 = "")
    (hc1h : '#' ∉ c1.data) (hc1c : ':' ∉ c1.data)
    (hc2h : '#' ∉ c2.data) (hc2c : ':' ∉ c2.data)
    (hs1h : '#' ∉ s1.data) (hs1c : ':' ∉ s1.data)
    (hs2h : '#' ∉ s2.data) (hs2c : ':' ∉ s2.data) :
    publish opts (register opts [t] (register opts [t] emptyRedis c1 s1) c2 s2) t payload
        (fun _ => .ok) (fun _ => false)
      = .ok (register opts [t] (register opts [t] emptyRedis c1 s1) c2 s2,
          [.send c1 (.vobj [("id", .vstr s1), ("type", .vstr "next"),
              ("payload", .vobj [("data", payload)])]),
           .send c2 (.vobj [("id", .vstr s2), ("type", .vstr "next"),
              ("payload", .vobj [("data", payload)])])]) ∧
    sendsTo [PubAction.send c1 (.vobj [("id", .vstr s1), ("type", .vstr "next"),
        ("payload", .vobj [("data", payload)])]),
      PubAction.send c2 (.vobj [("id", .vstr s2), ("type", .vstr "next"),
        ("payload", .vobj [("data", payload)])])] c1 = 1 ∧
    sendsTo [PubAction.send c1 (.vobj [("id", .vstr s1), ("type", .vstr "next"),
        ("payload", .vobj [("data", payload)])]),
      PubAction.send c2 (.vobj [("id", .vstr s2), ("type", .vstr "next"),
        ("payload", .vobj [("data", payload)])])] c2 = 1 := by
  have hch : getChannels opts
      (register opts [t] (register opts [t] emptyRedis c1 s1) c2 s2) t
      = [(c1, s1), (c2, s2)] := by
    rw [getChannels, register2_topic_members opts hkp s1 s2 t hcc hc1h hc2h]
    rw [List.filterMap_cons, List.filterMap_cons,
      parseChannel_tuple hkp hc1e hs1e hc1h hc1c hs1h hs1c,
      parseChannel_tuple hkp hc2e hs2e hc2h hc2c hs2h hs2c]
    rfl
  refine ⟨?_, ?_, ?_⟩
  · rw [publish_all_ok, hch]
    rfl
  · simp [sendsTo, isSendTo, List.filter, Ne.symm hcc]
  · simp [sendsTo, isSendTo, List.filter, hcc]

/-- Witness for claim C4 at concrete ids and payload. -/
theorem C4_publish_two_subscribers_witness :
    publish ⟨none⟩ (register ⟨none⟩ ["t1"] (register ⟨none⟩ ["t1"] emptyRedis "c1" "s1")
        "c2" "s2") "t1" (.vstr "hello") (fun _ => .ok) (fun _ => false)
      = .ok (register ⟨none⟩ ["t1"] (register ⟨none⟩ ["t1"] emptyRedis "c1" "s1") "c2" "s2",
          [.send "c1" (.vobj [("id", .vstr "s1"), ("type", .vstr "next"),
              ("payload", .vobj [("data", .vstr "hello")])]),
           .send "c2" (.vobj [("id", .vstr "s2"), ("type", .vstr "next"),
              ("payload", .vobj [("data", .vstr "hello")])])]) :=
  (C4_publish_two_subscribers ⟨none⟩ (by decide) "c1" "c2" "s1" "s2" "t1" (.vstr "hello")
    (by decide) (by decide) (by decide) (by decide) (by decide) (by decide) (by decide)
    (by decide) (by decide) (by decide) (by decide) (by decide) (by decide)).1

/-! #### Per-delivery failure handling of publish (claim C6) -/

/-- The state after the optional cleanup of a gone connection. -/
def discStep (opts : PubsubOptions) (st : RedisState) (cid : String)
    (fails : Bool) : RedisState :=
  match disconnectAttempt opts st cid fails with
  | .ok s => s
  | .error _ => st

theorem publishResultLoop_cons_ok (opts : PubsubOptions) (ch : String × String)
    (rest : List (String × String)) (outcome : Nat → SendOutcome) (i : Nat)
    (st : RedisState) (d : String → Bool) (h : outcome i = .ok) :
    publishResultLoop opts (ch :: rest) outcome i st d
      = publishResultLoop opts rest outcome (i + 1) st d := by
  rw [publishResultLoop, h]

theorem publishResultLoop_cons_410 (opts : PubsubOptions) (ch : String × String)
    (rest : List (String × String)) (outcome : Nat → SendOutcome) (i : Nat)
    (st : RedisState) (d : String → Bool) (h : outcome i = .failWith (some 410)) :
    publishResultLoop opts (ch :: rest) outcome i st d
      = ((publishResultLoop opts rest outcome (i + 1) (discStep opts st ch.1 (d ch.1)) d).1,
          .disconnectCall ch.1
            :: (publishResultLoop opts rest outcome (i + 1)
                  (discStep opts st ch.1 (d ch.1)) d).2) := by
  rw [publishResultLoop, h]
  simp [discStep]

theorem publishResultLoop_cons_other (opts : PubsubOptions) (ch : String × String)
    (rest : List (String × String)) (outcome : Nat → SendOutcome) (i : Nat)
    (st : RedisState) (d : String → Bool) (status : Option Nat)
    (h : outcome i = .failWith status) (hs : ¬status = some 410) :
    publishResultLoop opts (ch :: rest) outcome i st d
      = ((publishResultLoop opts rest outcome (i + 1) st d).1,
          .logWarn :: (publishResultLoop opts rest outcome (i + 1) st d).2) := by
  rw [publishResultLoop, h]
  simp [hs]

theorem publishResultLoop_disconnect_mem (opts : PubsubOptions) :
    ∀ (chs : List (String × String)) (outcome : Nat → SendOutcome) (i : Nat)
      (st : RedisState) (discFails : String → Bool) (j : Fin chs.length),
      outcome (i + j.val) = .failWith (some 410) →
      PubAction.disconnectCall (chs.get j).1
        ∈ (publishResultLoop opts chs outcome i st discFails).2 := by
  intro chs
  induction chs with
  | nil =>
    intro outcome i st d j h
    exact absurd j.isLt (by simp)
  | cons ch rest ih =>
    intro outcome i st d j h
    match j with
    | ⟨0, _⟩ =>
      rw [Nat.add_zero] at h
      rw [publishResultLoop_cons_410 opts ch rest outcome i st d h]
      exact List.mem_cons_self _ _
    | ⟨j2 + 1, hj⟩ =>
      have h2 : outcome (i + 1 + j2) = .failWith (some 410) := by
        rw [show i + 1 + j2 = i + (j2 + 1) from by omega]
        exact h
      have hlt : j2 < rest.length := by
        simp at hj
        omega
      have hm := ih outcome (i + 1) st d ⟨j2, hlt⟩ h2
      cases ho : outcome i with
      | ok =>
        rw [publishResultLoop_cons_ok opts ch rest outcome i st d ho]
        exact hm
      | failWith status =>
        by_cases hs : status = some 410
        · subst hs
          rw [publishResultLoop_cons_410 opts ch rest outcome i st d ho]
          exact List.mem_cons_of_mem _ (ih outcome (i + 1) _ d ⟨j2, hlt⟩ h2)
        · rw [publishResultLoop_cons_other opts ch rest outcome i st d status ho hs]
          exact List.mem_cons_of_mem _ hm

theorem publishResultLoop_logWarn_mem (opts : PubsubOptions) :
    ∀ (chs : List (String × String)) (outcome : Nat → SendOutcome) (i : Nat)
      (st : RedisState) (discFails : String → Bool) (j : Fin chs.length) (status : Option Nat),
      outcome (i + j.val) = .failWith status → ¬status = some 410 →
      PubAction.logWarn ∈ (publishResultLoop opts chs outcome i st discFails).2 := by
  intro chs
  induction chs with
  | nil =>
    intro outcome i st d j status h hs
    exact absurd j.isLt (by simp)
  | cons ch rest ih =>
    intro outcome i st d j status h hs
    match j with
    | ⟨0, _⟩ =>
      rw [Nat.add_zero] at h
      rw [publishResultLoop_cons_other opts ch rest outcome i st d status h hs]
      exact List.mem_cons_self _ _
    | ⟨j2 + 1, hj⟩ =>
      have h2 : outcome (i + 1 + j2) = .failWith status := by
        rw [show i + 1 + j2 = i + (j2 + 1) from by omega]
        exact h
      have hlt : j2 < rest.length := by
        simp at hj
        omega
      have hm := ih outcome (i + 1) st d ⟨j2, hlt⟩ status h2 hs
      cases ho : outcome i with
      | ok =>
        rw [publishResultLoop_cons_ok opts ch rest outcome i st d ho]
        exact hm
      | failWith status2 =>
        by_cases hs2 : status2 = some 410
        · subst hs2
          rw [publishResultLoop_cons_410 opts ch rest outcome i st d ho]
          exact List.mem_cons_of_mem _ (ih outcome (i + 1) _ d ⟨j2, hlt⟩ status h2 hs)
        · rw [publishResultLoop_cons_other opts ch rest outcome i st d status2 ho hs2]
          exact List.mem_cons_of_mem _ hm

/-- Claim C6: publish resolves without raising whatever the per-delivery
outcomes and even when the 410-triggered cleanup itself rejects; a delivery
rejected with status 410 contributes a disconnect call for that connection to
the action trace, and a delivery rejected with any other status contributes a
logged warning, the remaining channels still being processed. -/
theorem C6_publish_delivery_failures (opts : PubsubOptions) (st : RedisState)
    (topic : String) (payload : JSVal) (outcome : Nat → SendOutcome)
    (discFails : String → Bool) :
    (publish opts st topic payload outcome discFails).isOk = true ∧
    (∀ stf acts, publish opts st topic payload outcome discFails = .ok (stf, acts) →
      ∀ j : Fin (getChannels opts st topic).length,
        (outcome j.val = .failWith (some 410) →
          PubAction.disconnectCall ((getChannels opts st topic).get j).1 ∈ acts) ∧
        (∀ status, outcome j.val = .failWith status → ¬status = some 410 →
          PubAction.logWarn ∈ acts)) := by
  refine ⟨rfl, ?_⟩
  intro stf acts hacts j
  have h0 : publish opts st topic payload outcome discFails
      = .ok ((publishResultLoop opts (getChannels opts st topic) outcome 0 st discFails).1,
          (getChannels opts st topic).map
            (fun ch => PubAction.send ch.1 (encodePayload ch.2 (executePayload payload)))
            ++ (publishResultLoop opts (getChannels opts st topic)
                  outcome 0 st discFails).2) := rfl
  rw [h0] at hacts
  have hpair := Except.ok.inj hacts
  have hacts2 := congrArg Prod.snd hpair
  simp only [] at hacts2
  rw [← hacts2]
  constructor
  · intro h410
    refine List.mem_append_right _ ?_
    refine publishResultLoop_disconnect_mem opts _ outcome 0 st discFails j ?_
    rw [Nat.zero_add]
    exact h410
  · intro status hst hs
    refine List.mem_append_right _ ?_
    refine publishResultLoop_logWarn_mem opts _ outcome 0 st discFails j status ?_ hs
    rw [Nat.zero_add]
    exact hst

/-- Witness for claim C6: two registered channels, the first send rejected with
410 and the cleanup itself rejecting, the second rejected with 500. -/
theorem C6_publish_delivery_failures_witness :
    (publish ⟨none⟩ (register ⟨none⟩ ["tw"] (register ⟨none⟩ ["tw"] emptyRedis "cA" "sA")
        "cB" "sB") "tw" .vnull
        (fun i => if i = 0 then .failWith (some 410) else .failWith (some 500))
        (fun _ => true)).isOk = true ∧
    PubAction.disconnectCall "cA"
      ∈ [PubAction.send "cA" (.vobj [("id", .vstr "sA"), ("type", .vstr "next"),
            ("payload", .vobj [("data", JSVal.vnull)])]),
         PubAction.send "cB" (.vobj [("id", .vstr "sB"), ("type", .vstr "next"),
            ("payload", .vobj [("data", JSVal.vnull)])]),
         PubAction.disconnectCall "cA", PubAction.logWarn] ∧
    PubAction.logWarn
      ∈ [PubAction.send "cA" (.vobj [("id", .vstr "sA"), ("type", .vstr "next"),
            ("payload", .vobj [("data", JSVal.vnull)])]),
         PubAction.send "cB" (.vobj [("id", .vstr "sB"), ("type", .vstr "next"),
            ("payload", .vobj [("data", JSVal.vnull)])]),
         PubAction.disconnectCall "cA", PubAction.logWarn] := by
  have h := C6_publish_delivery_failures ⟨none⟩
    (register ⟨none⟩ ["tw"] (register ⟨none⟩ ["tw"] emptyRedis "cA" "sA") "cB" "sB")
    "tw" .vnull (fun i => if i = 0 then .failWith (some 410) else .failWith (some 500))
    (fun _ => true)
  refine ⟨h.1, ?_, ?_⟩
  · exact (h.2 (register ⟨none⟩ ["tw"] (register ⟨none⟩ ["tw"] emptyRedis "cA" "sA") "cB" "sB")
      [PubAction.send "cA" (.vobj [("id", .vstr "sA"), ("type", .vstr "next"),
          ("payload", .vobj [("data", JSVal.vnull)])]),
       PubAction.send "cB" (.vobj [("id", .vstr "sB"), ("type", .vstr "next"),
          ("payload", .vobj [("data", JSVal.vnull)])]),
       PubAction.disconnectCall "cA", PubAction.logWarn] rfl ⟨0, by decide⟩).1 rfl
  · exact (h.2 (register ⟨none⟩ ["tw"] (register ⟨none⟩ ["tw"] emptyRedis "cA" "sA") "cB" "sB")
      [PubAction.send "cA" (.vobj [("id", .vstr "sA"), ("type", .vstr "next"),
          ("payload", .vobj [("data", JSVal.vnull)])]),
       PubAction.send "cB" (.vobj [("id", .vstr "sB"), ("type", .vstr "next"),
          ("payload", .vobj [("data", JSVal.vnull)])]),
       PubAction.disconnectCall "cA", PubAction.logWarn] rfl ⟨1, by decide⟩).2
      (some 500) rfl (by decide)

/-! #### Removal-side set lemmas (claim C2) -/

theorem sRem_of_none {st : RedisState} {k : String} (m : String)
    (h : alookup st.sets k = none) : sRem st k m = st := by
  rw [sRem, h]

theorem sRem_of_some {st : RedisState} {k : String} {ms : List String} (m : String)
    (h : alookup st.sets k = some ms) :
    sRem st k m = (if (ms.filter (fun x => x ≠ m)).isEmpty
      then { st with sets := aremove st.sets k }
      else { st with sets := aset st.sets k (ms.filter (fun x => x ≠ m)) }) := by
  rw [sRem, h]

theorem sRem_strings (st : RedisState) (k m : String) :
    (sRem st k m).strings = st.strings := by
  cases h2 : alookup st.sets k with
  | none => rw [sRem_of_none m h2]
  | some ms =>
    rw [sRem_of_some m h2]
    by_cases he : (ms.filter (fun x => x ≠ m)).isEmpty = true
    · rw [if_pos he]
    · rw [if_neg he]

theorem sRem_hashes (st : RedisState) (k m : String) :
    (sRem st k m).hashes = st.hashes := by
  cases h2 : alookup st.sets k with
  | none => rw [sRem_of_none m h2]
  | some ms =>
    rw [sRem_of_some m h2]
    by_cases he : (ms.filter (fun x => x ≠ m)).isEmpty = true
    · rw [if_pos he]
    · rw [if_neg he]

theorem sMembers_sRem_other (st : RedisState) {k2 k : String} (h : ¬k2 = k) (m : String) :
    sMembers (sRem st k2 m) k = sMembers st k := by
  cases h2 : alookup st.sets k2 with
  | none => rw [sRem_of_none m h2]
  | some ms =>
    rw [sRem_of_some m h2]
    by_cases he : (ms.filter (fun x => x ≠ m)).isEmpty = true
    · rw [if_pos he]
      show (alookup (aremove st.sets k2) k).getD [] = sMembers st k
      rw [alookup_aremove_other st.sets h]
      rfl
    · rw [if_neg he]
      show (alookup (aset st.sets k2 (ms.filter (fun x => x ≠ m))) k).getD [] = sMembers st k
      rw [alookup_aset_other st.sets h]
      rfl

theorem mem_sMembers_sRem_mono {st : RedisState} {k2 k m m2 : String}
    (h : m ∈ sMembers (sRem st k2 m2) k) : m ∈ sMembers st k := by
  cases h2 : alookup st.sets k2 with
  | none =>
    rw [sRem_of_none m2 h2] at h
    exact h
  | some ms =>
    rw [sRem_of_some m2 h2] at h
    by_cases he : (ms.filter (fun x => x ≠ m2)).isEmpty = true
    · rw [if_pos he] at h
      by_cases hk : k2 = k
      · subst hk
        rw [show sMembers { st with sets := aremove st.sets k2 } k2
            = (alookup (aremove st.sets k2) k2).getD [] from rfl, alookup_aremove_same] at h
        exact absurd h (by simp)
      · rw [show sMembers { st with sets := aremove st.sets k2 } k
            = (alookup (aremove st.sets k2) k).getD [] from rfl,
          alookup_aremove_other st.sets hk] at h
        exact h
    · rw [if_neg he] at h
      by_cases hk : k2 = k
      · subst hk
        rw [show sMembers { st with sets := aset st.sets k2 (ms.filter (fun x => x ≠ m2)) } k2
            = (alookup (aset st.sets k2 (ms.filter (fun x => x ≠ m2))) k2).getD [] from rfl,
          alookup_aset_same] at h
        simp at h
        rw [show sMembers st k2 = (alookup st.sets k2).getD [] from rfl, h2]
        exact h.1
      · rw [show sMembers { st with sets := aset st.sets k2 (ms.filter (fun x => x ≠ m2)) } k
            = (alookup (aset st.sets k2 (ms.filter (fun x => x ≠ m2))) k).getD [] from rfl,
          alookup_aset_other st.sets hk] at h
        exact h

theorem not_mem_sMembers_sRem_self (st : RedisState) (k m : String) :
    m ∉ sMembers (sRem st k m) k := by
  cases h2 : alookup st.sets k with
  | none =>
    rw [sRem_of_none m h2]
    intro hm
    rw [show sMembers st k = (alookup st.sets k).getD [] from rfl, h2] at hm
    exact absurd hm (by simp)
  | some ms =>
    rw [sRem_of_some m h2]
    by_cases he : (ms.filter (fun x => x ≠ m)).isEmpty = true
    · rw [if_pos he]
      intro hm
      rw [show sMembers { st with sets := aremove st.sets k } k
          = (alookup (aremove st.sets k) k).getD [] from rfl, alookup_aremove_same] at hm
      exact absurd hm (by simp)
    · rw [if_neg he]
      intro hm
      rw [show sMembers { st with sets := aset st.sets k (ms.filter (fun x => x ≠ m)) } k
          = (alookup (aset st.sets k (ms.filter (fun x => x ≠ m))) k).getD [] from rfl,
        alookup_aset_same] at hm
      simp at hm

theorem alookup_sets_sRem_none {st : RedisState} {k : String} (k2 m : String)
    (h : alookup st.sets k = none) : alookup (sRem st k2 m).sets k = none := by
  cases h2 : alookup st.sets k2 with
  | none =>
    rw [sRem_of_none m h2]
    exact h
  | some ms =>
    have hne : ¬k2 = k := by
      intro he
      rw [he, h] at h2
      exact Option.noConfusion h2
    rw [sRem_of_some m h2]
    by_cases he : (ms.filter (fun x => x ≠ m)).isEmpty = true
    · rw [if_pos he]
      show alookup (aremove st.sets k2) k = none
      rw [alookup_aremove_other st.sets hne]
      exact h
    · rw [if_neg he]
      show alookup (aset st.sets k2 (ms.filter (fun x => x ≠ m))) k = none
      rw [alookup_aset_other st.sets hne]
      exact h

theorem sMembers_delSet_other {s : RedisState} {k2 k : String} (h : ¬k2 = k) :
    sMembers (delSet s k2) k = sMembers s k := by
  show (alookup (aremove s.sets k2) k).getD [] = sMembers s k
  rw [alookup_aremove_other s.sets h]
  rfl

theorem mem_sMembers_delSet_mono {s : RedisState} {k2 k m : String}
    (h : m ∈ sMembers (delSet s k2) k) : m ∈ sMembers s k := by
  by_cases hk : k2 = k
  · subst hk
    rw [show sMembers (delSet s k2) k2 = (alookup (aremove s.sets k2) k2).getD [] from rfl,
      alookup_aremove_same] at h
    exact absurd h (by simp)
  · rw [sMembers_delSet_other hk] at h
    exact h

theorem alookup_sets_delSet_same (s : RedisState) (k : String) :
    alookup (delSet s k).sets k = none :=
  alookup_aremove_same s.sets k

theorem alookup_sets_delSet_none {s : RedisState} {k : String} (k2 : String)
    (h : alookup s.sets k = none) : alookup (delSet s k2).sets k = none := by
  by_cases hk : k2 = k
  · subst hk
    exact alookup_aremove_same s.sets k2
  · show alookup (aremove s.sets k2) k = none
    rw [alookup_aremove_other s.sets hk]
    exact h

/-! #### Folded removals -/

theorem fold_sRem_strings (tuple : String) :
    ∀ (tks : List String) (s : RedisState),
      (tks.foldl (fun s3 tk => sRem s3 tk tuple) s).strings = s.strings := by
  intro tks
  induction tks with
  | nil =>
    intro s
    rfl
  | cons t rest ih =>
    intro s
    rw [List.foldl_cons, ih, sRem_strings]

theorem fold_sRem_hashes (tuple : String) :
    ∀ (tks : List String) (s : RedisState),
      (tks.foldl (fun s3 tk => sRem s3 tk tuple) s).hashes = s.hashes := by
  intro tks
  induction tks with
  | nil =>
    intro s
    rfl
  | cons t rest ih =>
    intro s
    rw [List.foldl_cons, ih, sRem_hashes]

theorem fold_sRem_none (tuple k : String) :
    ∀ (tks : List String) (s : RedisState), alookup s.sets k = none →
      alookup ((tks.foldl (fun s3 t => sRem s3 t tuple) s)).sets k = none := by
  intro tks
  induction tks with
  | nil =>
    intro s h
    exact h
  | cons t rest ih =>
    intro s h
    rw [List.foldl_cons]
    exact ih _ (alookup_sets_sRem_none t tuple h)

theorem fold_sRem_mem_mono (tuple : String) :
    ∀ (tks : List String) (s : RedisState) (k m : String),
      m ∈ sMembers (tks.foldl (fun s3 t => sRem s3 t tuple) s) k → m ∈ sMembers s k := by
  intro tks
  induction tks with
  | nil =>
    intro s k m h
    exact h
  | cons t rest ih =>
    intro s k m h
    rw [List.foldl_cons] at h
    exact mem_sMembers_sRem_mono (ih (sRem s t tuple) k m h)

theorem fold_sRem_sMembers_other (tuple : String) :
    ∀ (tks : List String) (s : RedisState) (k : String), (∀ tk ∈ tks, ¬tk = k) →
      sMembers (tks.foldl (fun s3 t => sRem s3 t tuple) s) k = sMembers s k := by
  intro tks
  induction tks with
  | nil =>
    intro s k _
    rfl
  | cons t rest ih =>
    intro s k h
    rw [List.foldl_cons, ih (sRem s t tuple) k (fun tk htk => h tk (List.mem_cons_of_mem _ htk))]
    exact sMembers_sRem_other s (h t (by simp)) tuple

theorem fold_sRem_not_mem (tuple : String) :
    ∀ (tks : List String) (s : RedisState) (tk : String), tk ∈ tks →
      tuple ∉ sMembers (tks.foldl (fun s3 t => sRem s3 t tuple) s) tk := by
  intro tks
  induction tks with
  | nil =>
    intro s tk h
    exact absurd h (List.not_mem_nil tk)
  | cons t rest ih =>
    intro s tk h
    rw [List.foldl_cons]
    rcases List.mem_cons.mp h with he | he
    · subst he
      intro hmem
      exact not_mem_sMembers_sRem_self s tk tuple
        (fold_sRem_mem_mono tuple rest (sRem s tk tuple) tk tuple hmem)
    · exact ih (sRem s t tuple) tk he

/-! #### The channel-tuple prefix of a connection (claim C2) -/

/-- Strip an expected character prefix; none when it does not match. -/
def stripPre : List Char → List Char → Option (List Char)
  | [], l => some l
  | _ :: _, [] => none
  | c :: cs, d :: ds => if c = d then stripPre cs ds else none

/-- The subscription-key part of a channel tuple of the given connection key;
none when the member does not reference that connection. -/
def tupleRest (connKey m : String) : Option String :=
  match stripPre (connKey.data ++ ['#']) m.data with
  | some r => some (String.mk r)
  | none => none

theorem stripPre_some : ∀ (p l r : List Char), stripPre p l = some r → l = p ++ r := by
  intro p
  induction p with
  | nil =>
    intro l r h
    simp only [stripPre] at h
    cases h
    rfl
  | cons c cs ih =>
    intro l r h
    cases l with
    | nil => simp [stripPre] at h
    | cons d ds =>
      simp only [stripPre] at h
      by_cases hcd : c = d
      · rw [if_pos hcd] at h
        subst hcd
        rw [ih ds r h]
        rfl
      · rw [if_neg hcd] at h
        exact Option.noConfusion h

theorem tupleRest_some {connKey m r : String} (h : tupleRest connKey m = some r) :
    m = connKey ++ "#" ++ r := by
  rw [tupleRest] at h
  cases hs : stripPre (connKey.data ++ ['#']) m.data with
  | none =>
    rw [hs] at h
    exact Option.noConfusion h
  | some rd =>
    rw [hs] at h
    have hr : String.mk rd = r := Option.some.inj h
    apply stringDataInj
    rw [data_append_hash, stripPre_some _ _ _ hs, ← hr]
    simp

/-! #### The disconnect script walks the connection's subscriptions -/

/-- One iteration of the disconnect script: remove the channel tuple of the
subscription from each of its topics, then delete the subscription set. -/
def disconnectStep (connKey : String) (s : RedisState) (subKey : String) : RedisState :=
  let tuple := connKey ++ "#" ++ subKey
  let topicKeys := sMembers s subKey
  let s2 := topicKeys.foldl (fun s3 tk => sRem s3 tk tuple) s
  delSet s2 subKey

theorem disconnectStep_eq (connKey : String) (s : RedisState) (x : String) :
    disconnectStep connKey s x
      = delSet ((sMembers s x).foldl
          (fun s3 tk => sRem s3 tk (connKey ++ "#" ++ x)) s) x := rfl

theorem disconnectStep_strings (connKey : String) (s : RedisState) (x : String) :
    (disconnectStep connKey s x).strings = s.strings := by
  rw [disconnectStep_eq]
  show ((sMembers s x).foldl (fun s3 tk => sRem s3 tk (connKey ++ "#" ++ x)) s).strings
    = s.strings
  exact fold_sRem_strings _ _ s

theorem disconnectStep_hashes (connKey : String) (s : RedisState) (x : String) :
    (disconnectStep connKey s x).hashes = s.hashes := by
  rw [disconnectStep_eq]
  show ((sMembers s x).foldl (fun s3 tk => sRem s3 tk (connKey ++ "#" ++ x)) s).hashes
    = s.hashes
  exact fold_sRem_hashes _ _ s

theorem disconnectStep_none (connKey k : String) (s : RedisState) (x : String)
    (h : alookup s.sets k = none) :
    alookup (disconnectStep connKey s x).sets k = none := by
  rw [disconnectStep_eq]
  exact alookup_sets_delSet_none x
    (fold_sRem_none (connKey ++ "#" ++ x) k (sMembers s x) s h)

theorem fold_step_none (connKey k : String) :
    ∀ (l : List String) (s : RedisState), alookup s.sets k = none →
      alookup (l.foldl (disconnectStep connKey) s).sets k = none := by
  intro l
  induction l with
  | nil =>
    intro s h
    exact h
  | cons x rest ih =>
    intro s h
    rw [List.foldl_cons]
    exact ih _ (disconnectStep_none connKey k s x h)

/-- Loop invariant of the disconnect script.  Over a pending list of distinct
subscription keys whose topic sets are still intact, whose topic keys are never
themselves pending subscription keys, and such that every channel tuple of the
connection anywhere in the store belongs to a pending subscription and sits in
one of its recorded topic sets, the loop deletes every pending subscription
set, leaves no channel tuple of the connection anywhere, and never touches a
string or hash record. -/
theorem disconnectLoop_clean (connKey : String) (st : RedisState) :
    ∀ (pending : List String) (s : RedisState),
      pending.Nodup →
      (∀ r ∈ pending, sMembers s r = sMembers st r) →
      (∀ r ∈ pending, ∀ r2 ∈ pending, ∀ tk ∈ sMembers st r2, ¬tk = r) →
      (∀ k m, m ∈ sMembers s k → ∀ r2, tupleRest connKey m = some r2 →
        r2 ∈ pending ∧ k ∈ sMembers st r2) →
      (∀ r ∈ pending, alookup (pending.foldl (disconnectStep connKey) s).sets r = none) ∧
      (∀ k m, m ∈ sMembers (pending.foldl (disconnectStep connKey) s) k →
        tupleRest connKey m = none) ∧
      (pending.foldl (disconnectStep connKey) s).strings = s.strings ∧
      (pending.foldl (disconnectStep connKey) s).hashes = s.hashes := by
  intro pending
  induction pending with
  | nil =>
    intro s hnd hA hsep hB
    refine ⟨by simp, ?_, rfl, rfl⟩
    intro k m hm
    cases ht : tupleRest connKey m with
    | none => rfl
    | some r2 => exact absurd (hB k m hm r2 ht).1 (List.not_mem_nil r2)
  | cons r rest ih =>
    intro s hnd hA hsep hB
    obtain ⟨hrni, hnd2⟩ := List.nodup_cons.mp hnd
    have hAr : sMembers s r = sMembers st r := hA r (by simp)
    have hstep : disconnectStep connKey s r
        = delSet ((sMembers st r).foldl
            (fun s3 tk => sRem s3 tk (connKey ++ "#" ++ r)) s) r := by
      rw [disconnectStep_eq, hAr]
    rw [List.foldl_cons, hstep]
    set s2 : RedisState := (sMembers st r).foldl
        (fun s3 tk => sRem s3 tk (connKey ++ "#" ++ r)) s with hs2def
    have hA2 : ∀ r2 ∈ rest, sMembers (delSet s2 r) r2 = sMembers st r2 := by
      intro r2 hr2
      have hne : ¬r = r2 := fun he => hrni (he ▸ hr2)
      rw [sMembers_delSet_other hne, hs2def,
        fold_sRem_sMembers_other (connKey ++ "#" ++ r) (sMembers st r) s r2
          (fun tk htk => hsep r2 (List.mem_cons_of_mem _ hr2) r (by simp) tk htk)]
      exact hA r2 (List.mem_cons_of_mem _ hr2)
    have hB2 : ∀ k m, m ∈ sMembers (delSet s2 r) k → ∀ r2, tupleRest connKey m = some r2 →
        r2 ∈ rest ∧ k ∈ sMembers st r2 := by
      intro k m hm r2 ht
      have hm2 : m ∈ sMembers s2 k := mem_sMembers_delSet_mono hm
      have hm2b : m ∈ sMembers ((sMembers st r).foldl
          (fun s3 tk => sRem s3 tk (connKey ++ "#" ++ r)) s) k := by
        rw [← hs2def]
        exact hm2
      have hms : m ∈ sMembers s k :=
        fold_sRem_mem_mono (connKey ++ "#" ++ r) (sMembers st r) s k m hm2b
      have hB0 := hB k m hms r2 ht
      rcases List.mem_cons.mp hB0.1 with he | he
      · exfalso
        subst he
        have hmeq := tupleRest_some ht
        subst hmeq
        have hnm := fold_sRem_not_mem (connKey ++ "#" ++ r2) (sMembers st r2) s k hB0.2
        rw [← hs2def] at hnm
        exact hnm hm2
      · exact ⟨he, hB0.2⟩
    have hsep2 : ∀ r3 ∈ rest, ∀ r4 ∈ rest, ∀ tk ∈ sMembers st r4, ¬tk = r3 :=
      fun r3 h3 r4 h4 tk htk =>
        hsep r3 (List.mem_cons_of_mem _ h3) r4 (List.mem_cons_of_mem _ h4) tk htk
    obtain ⟨ih1, ih2, ih3, ih4⟩ := ih (delSet s2 r) hnd2 hA2 hsep2 hB2
    refine ⟨?_, ih2, ?_, ?_⟩
    · intro r2 hr2
      rcases List.mem_cons.mp hr2 with he | he
      · subst he
        exact fold_step_none connKey r2 rest (delSet s2 r2) (alookup_sets_delSet_same s2 r2)
      · exact ih1 r2 he
    · rw [ih3]
      show s2.strings = s.strings
      rw [hs2def]
      exact fold_sRem_strings _ _ s
    · rw [ih4]
      show s2.hashes = s.hashes
      rw [hs2def]
      exact fold_sRem_hashes _ _ s

/-- Claim C2, amended: on a consistent registry (distinct subscription keys in
the connection set, topic keys never colliding with subscription keys, and
every channel tuple of the connection recorded under a registered subscription
and inside one of its topic sets), the disconnect cleanup deletes the
connection set, deletes every one of its subscription sets, and removes every
channel tuple referencing the connection from every set — but it only ever
touches the set namespace: the string records (graphql:subscription:{sid}
payloads) and the hash records (graphql:connection:{cid} contexts) survive
unchanged, contrary to the frozen claim that they are deleted. -/
theorem C2_disconnect_pubsub_cleanup (opts : PubsubOptions) (st : RedisState) (cid : String)
    (hnodup : (sMembers st (key opts "conn" cid)).Nodup)
    (hsep : ∀ r ∈ sMembers st (key opts "conn" cid),
      ∀ r2 ∈ sMembers st (key opts "conn" cid), ∀ tk ∈ sMembers st r2, ¬tk = r)
    (hcons : ∀ e ∈ st.sets, ∀ m ∈ e.2,
      ((tupleRest (key opts "conn" cid) m).all (fun r2 =>
        decide (r2 ∈ sMembers st (key opts "conn" cid) ∧ e.1 ∈ sMembers st r2))) = true) :
    alookup (pubsubDisconnect opts st cid).sets (key opts "conn" cid) = none ∧
    (∀ r ∈ sMembers st (key opts "conn" cid),
      alookup (pubsubDisconnect opts st cid).sets r = none) ∧
    (∀ k m, m ∈ sMembers (pubsubDisconnect opts st cid) k →
      tupleRest (key opts "conn" cid) m = none) ∧
    (pubsubDisconnect opts st cid).strings = st.strings ∧
    (pubsubDisconnect opts st cid).hashes = st.hashes := by
  have hB : ∀ k m, m ∈ sMembers st k → ∀ r2, tupleRest (key opts "conn" cid) m = some r2 →
      r2 ∈ sMembers st (key opts "conn" cid) ∧ k ∈ sMembers st r2 := by
    intro k m hm r2 ht
    cases halo : alookup st.sets k with
    | none =>
      rw [show sMembers st k = (alookup st.sets k).getD [] from rfl, halo] at hm
      exact absurd hm (by simp)
    | some ms =>
      have hmm : m ∈ ms := by
        rw [show sMembers st k = (alookup st.sets k).getD [] from rfl, halo] at hm
        exact hm
      have h2 := hcons (k, ms) (alookup_mem halo) m hmm
      rw [ht] at h2
      exact of_decide_eq_true h2
  obtain ⟨h1, h2, h3, h4⟩ := disconnectLoop_clean (key opts "conn" cid) st
    (sMembers st (key opts "conn" cid)) st hnodup (fun r _ => rfl) hsep hB
  rw [show pubsubDisconnect opts st cid
    = delSet ((sMembers st (key opts "conn" cid)).foldl
        (disconnectStep (key opts "conn" cid)) st) (key opts "conn" cid) from rfl]
  refine ⟨alookup_sets_delSet_same _ _, ?_, ?_, ?_, ?_⟩
  · intro r hr
    exact alookup_sets_delSet_none _ (h1 r hr)
  · intro k m hm
    exact h2 k m (mem_sMembers_delSet_mono hm)
  · exact h3
  · exact h4

/-- A store holding one registered subscription of connection cw plus its
subscribe-payload string record and its context hash record. -/
def c2State : RedisState :=
  { sets := [("pubsub:conn:cw", ["pubsub:sub:sw"]),
             ("pubsub:sub:sw", ["pubsub:topic:tw"]),
             ("pubsub:topic:tw", ["pubsub:conn:cw#pubsub:sub:sw"])],
    strings := [("graphql:subscription:sw", "42")],
    hashes := [("graphql:connection:cw", [("acknowledged", "__boolean__true")])] }

/-- Claim C2 as frozen is false: after the disconnect cleanup of cw, every
pubsub:* reference to the connection is gone, yet the subscribe-payload record
graphql:subscription:sw and the context record graphql:connection:cw survive
untouched — the script never issues a DEL outside the set namespace. -/
theorem C2_disconnect_counterexample :
    redisGet (pubsubDisconnect ⟨none⟩ c2State "cw") "graphql:subscription:sw" = some "42" ∧
    hGetAll (pubsubDisconnect ⟨none⟩ c2State "cw") "graphql:connection:cw"
      = [("acknowledged", "__boolean__true")] ∧
    alookup (pubsubDisconnect ⟨none⟩ c2State "cw").sets "pubsub:conn:cw" = none ∧
    alookup (pubsubDisconnect ⟨none⟩ c2State "cw").sets "pubsub:sub:sw" = none ∧
    sMembers (pubsubDisconnect ⟨none⟩ c2State "cw") "pubsub:topic:tw" = [] := by
  decide

/-- Witness for the amended claim C2 at the concrete one-subscription store. -/
theorem C2_disconnect_pubsub_cleanup_witness :
    alookup (pubsubDisconnect ⟨none⟩ c2State "cw").sets (key ⟨none⟩ "conn" "cw") = none ∧
    (pubsubDisconnect ⟨none⟩ c2State "cw").strings = c2State.strings ∧
    (pubsubDisconnect ⟨none⟩ c2State "cw").hashes = c2State.hashes := by
  have h := C2_disconnect_pubsub_cleanup ⟨none⟩ c2State "cw" (by decide) (by decide) (by decide)
  exact ⟨h.1, h.2.2.2.1, h.2.2.2.2⟩

/-! #### The dispatcher and the pending-change flush (claim C1) -/

/-- Events the adapter dispatches on: CONNECT (with whether the event carries
the AWS base shape and whether a supported subprotocol was offered), DISCONNECT,
and MESSAGE (default route or a custom route with its handler result). -/
inductive AWSEvent where
  | connect (isAWSBase : Bool) (protocolSupported : Bool)
  | disconnect
  | message (isDefaultRoute : Bool) (customResult : Option Nat)

/-- handleConnect: on an AWS base event it always returns a response, 200 when
a subprotocol was negotiated and 400 otherwise; on any other event shape it
returns undefined. -/
def handleConnectResult : Bool → Bool → Option Nat
  | true, true => some 200
  | true, false => some 400
  | false, _ => none

/-- handleDisconnect: every path of the handler ends in return of statusCode
200, so the dispatcher always receives a response from it. -/
def handleDisconnectResult : Option Nat := some 200

/-- handleMessage: every branch returns undefined (close results and bare
returns), so the dispatcher always falls through to the flush. -/
def handleMessageResult : Option Nat := none

/-- Outcome of one adapter invocation: the returned status code, whether the
final socket.flushChanges() was awaited before returning, and the proxy-tracked
writes of the invocation still unflushed at return. -/
structure InvocationOutcome where
  statusCode : Nat
  flushAwaited : Bool
  unflushed : List (String × String)

/-- The dispatcher of GraphQLLambdaWsAdapter: run the per-event handler with
the given proxy writes; when the handler returns a response, return it at once
— skipping the trailing await socket.flushChanges() — otherwise await the flush
and return 200. -/
def wsAdapterInvoke (e : AWSEvent) (writes : List (String × String)) : InvocationOutcome :=
  match e with
  | .connect b p =>
    match handleConnectResult b p with
    | some code => ⟨code, false, writes⟩
    | none => ⟨200, true, []⟩
  | .disconnect =>
    match handleDisconnectResult with
    | some code => ⟨code, false, writes⟩
    | none => ⟨200, true, []⟩
  | .message isDefault custom =>
    match (if isDefault then handleMessageResult else custom) with
    | some code => ⟨code, false, writes⟩
    | none => ⟨200, true, []⟩

/-- Claim C1 fails in the code: a DISCONNECT invocation whose callbacks wrote a
context field through the proxy returns statusCode 200 while the flush was
never awaited and the write is still pending — handleDisconnect always returns
a response, so the dispatcher's early return skips socket.flushChanges(). -/
theorem C1_disconnect_skips_flush :
    (wsAdapterInvoke .disconnect [("extra.note", "bye")]).statusCode = 200 ∧
    (wsAdapterInvoke .disconnect [("extra.note", "bye")]).flushAwaited = false ∧
    (wsAdapterInvoke .disconnect [("extra.note", "bye")]).unflushed
      = [("extra.note", "bye")] := by
  decide

/-! #### Hash-merge semantics of createContext (claim C7) -/

theorem alookup_append_of_some {α : Type} {l1 : List (String × α)} {k : String} {v : α}
    (h : alookup l1 k = some v) (l2 : List (String × α)) :
    alookup (l1 ++ l2) k = some v := by
  induction l1 with
  | nil => simp [alookup] at h
  | cons p rest ih =>
    obtain ⟨k2, w⟩ := p
    by_cases hk : k2 = k
    · simp [alookup, hk] at h ⊢
      exact h
    · simp [alookup, hk] at h ⊢
      exact ih h

theorem alookup_append_of_none {α : Type} {l1 : List (String × α)} {k : String}
    (h : alookup l1 k = none) (l2 : List (String × α)) :
    alookup (l1 ++ l2) k = alookup l2 k := by
  induction l1 with
  | nil => rfl
  | cons p rest ih =>
    obtain ⟨k2, w⟩ := p
    by_cases hk : k2 = k
    · simp [alookup, hk] at h
    · simp [alookup, hk] at h ⊢
      exact ih h

theorem alookup_none_of_keys {α : Type} :
    ∀ (l : List (String × α)) (k : String), (∀ e ∈ l, ¬e.1 = k) → alookup l k = none := by
  intro l
  induction l with
  | nil =>
    intro k _
    rfl
  | cons p rest ih =>
    intro k h
    obtain ⟨k2, w⟩ := p
    have hk : ¬k2 = k := h (k2, w) (by simp)
    simp [alookup, hk]
    exact ih k (fun e he => h e (List.mem_cons_of_mem _ he))

theorem foldl_aset_last_none {α : Type} :
    ∀ (pairs : List (String × α)) (acc : List (String × α)) (k : String),
      alookup pairs.reverse k = none →
      alookup (pairs.foldl (fun a kv => aset a kv.1 kv.2) acc) k = alookup acc k := by
  intro pairs
  induction pairs with
  | nil =>
    intro acc k _
    rfl
  | cons p rest ih =>
    intro acc k hn
    rw [List.foldl_cons]
    have hsplit : alookup (rest.reverse ++ [p]) k = none := by
      rw [← List.reverse_cons]
      exact hn
    have hrest : alookup rest.reverse k = none := by
      cases hc : alookup rest.reverse k with
      | none => rfl
      | some v =>
        rw [alookup_append_of_some hc] at hsplit
        exact Option.noConfusion hsplit
    have hp : ¬p.1 = k := by
      intro hk
      rw [alookup_append_of_none hrest] at hsplit
      obtain ⟨k2, w⟩ := p
      simp [alookup] at hsplit
      exact hsplit hk
    rw [ih (aset acc p.1 p.2) k hrest, alookup_aset_other acc hp]

theorem foldl_aset_last_some {α : Type} :
    ∀ (pairs : List (String × α)) (acc : List (String × α)) (k : String) (v : α),
      alookup pairs.reverse k = some v →
      alookup (pairs.foldl (fun a kv => aset a kv.1 kv.2) acc) k = some v := by
  intro pairs
  induction pairs with
  | nil =>
    intro acc k v hn
    simp [alookup] at hn
  | cons p rest ih =>
    intro acc k v hn
    rw [List.foldl_cons]
    have hsplit : alookup (rest.reverse ++ [p]) k = some v := by
      rw [← List.reverse_cons]
      exact hn
    cases hc : alookup rest.reverse k with
    | some w =>
      have hw : w = v := by
        rw [alookup_append_of_some hc] at hsplit
        exact Option.some.inj hsplit
      subst hw
      exact ih (aset acc p.1 p.2) k w hc
    | none =>
      rw [alookup_append_of_none hc] at hsplit
      obtain ⟨k2, w⟩ := p
      by_cases hk : k2 = k
      · have hv : w = v := by
          simp [alookup, hk] at hsplit
          exact hsplit
        rw [foldl_aset_last_none rest (aset acc k2 w) k hc]
        subst hk
        rw [alookup_aset_same, hv]
      · simp [alookup, hk] at hsplit

theorem hGetAll_hSetPairs_self (st : RedisState) (k : String)
    (pairs : List (String × String)) :
    hGetAll (hSetPairs st k pairs) k
      = pairs.foldl (fun a kv => aset a kv.1 kv.2) (hGetAll st k) := by
  show (alookup (aset st.hashes k
      (pairs.foldl (fun h kv => aset h kv.1 kv.2) ((alookup st.hashes k).getD []))) k).getD []
    = _
  rw [alookup_aset_same]
  rfl

theorem hGetAll_hSetPairs_other (st : RedisState) {k k2 : String} (h : ¬k = k2)
    (pairs : List (String × String)) :
    hGetAll (hSetPairs st k pairs) k2 = hGetAll st k2 := by
  show (alookup (aset st.hashes k
      (pairs.foldl (fun h kv => aset h kv.1 kv.2) ((alookup st.hashes k).getD []))) k2).getD []
    = _
  rw [alookup_aset_other st.hashes h]
  rfl

/-- createContext of the socket: compress the initial context and HSET it onto
the connection's context hash.  The write is a plain HSET: no DEL precedes it. -/
def createContext (st : RedisState) (connectionId : String) (data : WSContext) : RedisState :=
  hSetPairs st (connectionContextKey connectionId) (compressContext data)

/-- Claim C7, amended: createContext merges rather than replaces.  Every field
of the flattened initial context is stored with its new value (later duplicate
paths winning, as Object.fromEntries and HSET do), every field of a previously
stored record whose path the new context does not mention survives unchanged,
and no other connection's record is touched.  The frozen claim that no prior
field survives is false. -/
theorem C7_createContext_merge (st : RedisState) (cid : String) (data : WSContext) :
    (∀ k v, alookup (compressContext data).reverse k = some v →
      alookup (hGetAll (createContext st cid data) (connectionContextKey cid)) k = some v) ∧
    (∀ k, alookup (compressContext data).reverse k = none →
      alookup (hGetAll (createContext st cid data) (connectionContextKey cid)) k
        = alookup (hGetAll st (connectionContextKey cid)) k) ∧
    (∀ k2, ¬k2 = connectionContextKey cid →
      hGetAll (createContext st cid data) k2 = hGetAll st k2) := by
  refine ⟨?_, ?_, ?_⟩
  · intro k v h
    rw [createContext, hGetAll_hSetPairs_self]
    exact foldl_aset_last_some (compressContext data) (hGetAll st (connectionContextKey cid)) k v h
  · intro k h
    rw [createContext, hGetAll_hSetPairs_self]
    exact foldl_aset_last_none (compressContext data) (hGetAll st (connectionContextKey cid)) k h
  · intro k2 h
    rw [createContext]
    exact hGetAll_hSetPairs_other st (fun he => h he.symm) (compressContext data)

/-- A store whose context hash for c1 holds a stale flattened field. -/
def c7State : RedisState :=
  { sets := [], strings := [],
    hashes := [("graphql:connection:c1", [("extra.stale", "old")])] }

/-- An initial context whose compression mentions only the two flags. -/
def c7Data : WSContext :=
  { connectionInitReceived := false, acknowledged := false,
    connectionParams := .vundef, extra := .vundef }

/-- Claim C7 as frozen is false: after createContext, a field of the previously
stored record that the new flattened context does not mention is still present
— HSET merges into the hash and nothing deletes the old record first. -/
theorem C7_createContext_counterexample :
    alookup (hGetAll (createContext c7State "c1" c7Data) (connectionContextKey "c1"))
      "extra.stale" = some "old" ∧
    alookup (compressContext c7Data) "extra.stale" = none := by
  decide

/-- Witness for the amended claim C7: the new flag field is stored and the
stale field survives with its old value. -/
theorem C7_createContext_merge_witness :
    alookup (hGetAll (createContext c7State "c1" c7Data) (connectionContextKey "c1"))
      "acknowledged" = some "__boolean__false" ∧
    alookup (hGetAll (createContext c7State "c1" c7Data) (connectionContextKey "c1"))
      "extra.stale" = alookup (hGetAll c7State (connectionContextKey "c1")) "extra.stale" :=
  ⟨(C7_createContext_merge c7State "c1" c7Data).1 "acknowledged" "__boolean__false" (by decide),
   (C7_createContext_merge c7State "c1" c7Data).2.1 "extra.stale" (by decide)⟩

/-! #### The Subscribe branch of handleMessage (claim C8) -/

/-- Observable steps of the Subscribe branch. -/
inductive SubAction where
  | contextLoad
  | close (code : Nat) (reason : String)
  | isRegisteredCheck (sid : String)
  | persistPayload (sid : String)
  | execute (sid : String)
deriving DecidableEq

/-- The Subscribe branch of handleMessage: load the context; if it is not
acknowledged, close 4401 Unauthorized; otherwise check registration, closing
4409 when the subscriber exists; otherwise persist the payload record and run
the execution pipeline. -/
def handleSubscribe (ctx : BuiltContext) (alreadyRegistered : Bool) (sid : String) :
    List SubAction :=
  SubAction.contextLoad ::
  (if isTruthy ctx.acknowledged = false then
    [SubAction.close 4401 "Unauthorized"]
  else if alreadyRegistered then
    [SubAction.isRegisteredCheck sid,
     SubAction.close 4409 ("Subscriber for " ++ sid ++ " already exists")]
  else
    [SubAction.isRegisteredCheck sid, SubAction.persistPayload sid, SubAction.execute sid])

/-- Claim C8: on a Subscribe message over an unacknowledged context the branch
closes the socket with 4401 Unauthorized immediately after loading the context,
and performs no registration check, no payload persistence and no execution,
whatever the registration state of the subscription id. -/
theorem C8_subscribe_requires_ack (ctx : BuiltContext) (reg : Bool) (sid : String)
    (hack : isTruthy ctx.acknowledged = false) :
    handleSubscribe ctx reg sid = [SubAction.contextLoad, SubAction.close 4401 "Unauthorized"] ∧
    (∀ a ∈ handleSubscribe ctx reg sid,
      (∀ s, ¬a = SubAction.isRegisteredCheck s) ∧
      (∀ s, ¬a = SubAction.persistPayload s) ∧
      (∀ s, ¬a = SubAction.execute s)) := by
  have h1 : handleSubscribe ctx reg sid
      = [SubAction.contextLoad, SubAction.close 4401 "Unauthorized"] := by
    rw [handleSubscribe, if_pos hack]
  refine ⟨h1, ?_⟩
  intro a ha
  rw [h1] at ha
  rcases List.mem_cons.mp ha with he | he
  · subst he
    exact ⟨fun s => by simp, fun s => by simp, fun s => by simp⟩
  · rcases List.mem_cons.mp he with he2 | he2
    · subst he2
      exact ⟨fun s => by simp, fun s => by simp, fun s => by simp⟩
    · exact absurd he2 (List.not_mem_nil a)

/-- Witness for claim C8 at the freshly connected (never acknowledged) context. -/
theorem C8_subscribe_requires_ack_witness :
    isTruthy initialBuiltContext.acknowledged = false ∧
    handleSubscribe initialBuiltContext true "s1"
      = [SubAction.contextLoad, SubAction.close 4401 "Unauthorized"] :=
  ⟨by decide, (C8_subscribe_requires_ack initialBuiltContext true "s1" (by decide)).1⟩

/-! #### The two protocol flags move in lockstep (claim C10) -/

/-- HSET field-merge at the hash level: later pairs win, untouched fields stay. -/
def mergePairs (h pairs : List (String × String)) : List (String × String) :=
  pairs.foldl (fun a kv => aset a kv.1 kv.2) h

/-- HDEL at the hash level. -/
def removeFields (h : List (String × String)) (fields : List String) :
    List (String × String) :=
  h.filter (fun kv => decide (kv.1 ∉ fields))

/-- The pending changes one proxy write produces: object-typed values (objects,
arrays and null, as typeof reports) are flattened from the written path, any
other value is a single serialized entry at the path. -/
def proxySetChanges (path : String) (v : JSVal) : List (String × String) :=
  if isObjectType v then (flattenObject v path).map (fun e => (e.1, serializeValue e.2))
  else [(path, serializeValue v)]

theorem alookup_mergePairs_some {h pairs : List (String × String)} {k v : String}
    (hl : alookup pairs.reverse k = some v) : alookup (mergePairs h pairs) k = some v :=
  foldl_aset_last_some pairs h k v hl

theorem alookup_mergePairs_none {h pairs : List (String × String)} {k : String}
    (hl : alookup pairs.reverse k = none) : alookup (mergePairs h pairs) k = alookup h k :=
  foldl_aset_last_none pairs h k hl

theorem alookup_removeFields_of_not_mem :
    ∀ (h : List (String × String)) (fields : List String) (k : String), k ∉ fields →
      alookup (removeFields h fields) k = alookup h k := by
  intro h
  induction h with
  | nil =>
    intro fields k _
    rfl
  | cons p rest ih =>
    intro fields k hk
    obtain ⟨k2, w⟩ := p
    rw [removeFields, List.filter_cons]
    by_cases hin : k2 ∈ fields
    · have hne : ¬k2 = k := fun he => hk (he ▸ hin)
      rw [if_neg (by simp [hin])]
      rw [show alookup ((k2, w) :: rest) k = alookup rest k from by simp [alookup, hne]]
      exact ih fields k hk
    · rw [if_pos (by simp [hin])]
      by_cases he : k2 = k
      · simp [alookup, he]
      · simp only [alookup, if_neg he]
        exact ih fields k hk

theorem dotJoin_prefix : ∀ (segs : List String) (p : String),
    ∃ t, (dotJoin p segs).data = p.data ++ t := by
  intro segs
  induction segs with
  | nil =>
    intro p
    exact ⟨[], by simp [dotJoin]⟩
  | cons k ks ih =>
    intro p
    rw [show dotJoin p (k :: ks) = dotJoin (p ++ "." ++ k) ks from rfl]
    obtain ⟨t, ht⟩ := ih (p ++ "." ++ k)
    refine ⟨'.' :: k.data ++ t, ?_⟩
    rw [ht, show (p ++ "." ++ k).data = p.data ++ '.' :: k.data from by simp [String.data_append]]
    simp

theorem dotJoin_ne_of_take (p q : String) (segs : List String)
    (hq : ¬q.data.take p.data.length = p.data) : ¬dotJoin p segs = q := by
  intro he
  obtain ⟨t, ht⟩ := dotJoin_prefix segs p
  rw [he] at ht
  refine hq ?_
  rw [ht]
  exact List.take_left _ _

theorem flatten_key_ne (v : JSVal) (p q : String)
    (hq : ¬q.data.take p.data.length = p.data) :
    ∀ e ∈ (flattenObject v p).map (fun e => (e.1, serializeValue e.2)), ¬e.1 = q := by
  intro e he
  rcases List.mem_map.mp he with ⟨e0, he0, heq⟩
  rw [flatten_corr] at he0
  rcases List.mem_map.mp he0 with ⟨e1, _, heq1⟩
  intro hk
  apply dotJoin_ne_of_take p q e1.1 hq
  have h1 : dotJoin p e1.1 = e0.1 := by
    rw [← heq1]
  have h2 : e0.1 = e.1 := by
    rw [← heq]
  rw [h1, h2, hk]

theorem proxySetChanges_key_ne (path q : String) (v : JSVal)
    (hq : ¬q.data.take path.data.length = path.data) :
    ∀ e ∈ proxySetChanges path v, ¬e.1 = q := by
  intro e he
  rw [proxySetChanges] at he
  by_cases ho : isObjectType v = true
  · rw [if_pos ho] at he
    exact flatten_key_ne v path q hq e he
  · rw [if_neg ho] at he
    rcases List.mem_cons.mp he with he2 | he2
    · subst he2
      intro hk
      exact dotJoin_ne_of_take path q [] hq hk
    · exact absurd he2 (List.not_mem_nil e)

theorem compress_connect_flags (extra : JSVal) :
    alookup (compressContext
      { connectionInitReceived := false, acknowledged := false,
        connectionParams := .vundef, extra := extra }).reverse "connectionInitReceived"
      = some "__boolean__false" ∧
    alookup (compressContext
      { connectionInitReceived := false, acknowledged := false,
        connectionParams := .vundef, extra := extra }).reverse "acknowledged"
      = some "__boolean__false" := by
  have hstruct : compressContext
      { connectionInitReceived := false, acknowledged := false,
        connectionParams := .vundef, extra := extra }
      = [("connectionInitReceived", "__boolean__false"), ("acknowledged", "__boolean__false")]
        ++ (if isTruthy extra then (flattenObject extra "extra").map
              (fun e => (e.1, serializeValue e.2))
            else []) := by
    rfl
  have hE : ∀ q : String, ¬q.data.take ("extra" : String).data.length = ("extra" : String).data →
      alookup ((if isTruthy extra then (flattenObject extra "extra").map
          (fun e => (e.1, serializeValue e.2))
        else []) : List (String × String)).reverse q = none := by
    intro q hq
    apply alookup_none_of_keys
    intro e he
    rw [List.mem_reverse] at he
    by_cases ht : isTruthy extra = true
    · rw [if_pos ht] at he
      exact flatten_key_ne extra "extra" q hq e he
    · rw [if_neg ht] at he
      exact absurd he (List.not_mem_nil e)
  rw [hstruct, List.reverse_append]
  constructor
  · rw [alookup_append_of_none (hE "connectionInitReceived" (by decide))]
    decide
  · rw [alookup_append_of_none (hE "acknowledged" (by decide))]
    decide

theorem init_pairs_flags (cp : JSVal) :
    alookup (proxySetChanges "acknowledged" (.vbool true)
      ++ proxySetChanges "connectionInitReceived" (.vbool true)
      ++ proxySetChanges "connectionParams" cp).reverse "connectionInitReceived"
      = some "__boolean__true" ∧
    alookup (proxySetChanges "acknowledged" (.vbool true)
      ++ proxySetChanges "connectionInitReceived" (.vbool true)
      ++ proxySetChanges "connectionParams" cp).reverse "acknowledged"
      = some "__boolean__true" := by
  have hA : proxySetChanges "acknowledged" (.vbool true)
      = [("acknowledged", "__boolean__true")] := rfl
  have hB : proxySetChanges "connectionInitReceived" (.vbool true)
      = [("connectionInitReceived", "__boolean__true")] := rfl
  have hC : ∀ q : String,
      ¬q.data.take ("connectionParams" : String).data.length
        = ("connectionParams" : String).data →
      alookup (proxySetChanges "connectionParams" cp).reverse q = none := by
    intro q hq
    apply alookup_none_of_keys
    intro e he
    rw [List.mem_reverse] at he
    exact proxySetChanges_key_ne "connectionParams" q cp hq e he
  rw [hA, hB, List.reverse_append, List.reverse_append]
  constructor
  · rw [alookup_append_of_none (hC "connectionInitReceived" (by decide))]
    decide
  · rw [alookup_append_of_none (hC "acknowledged" (by decide))]
    decide

/-- The persisted context hashes the adapter itself can produce: the empty
record of a fresh connection; the CONNECT write, merging the compression of the
initial context whose two flags are false; the ConnectionInit flush, merging in
one batch the two flags set true together with the connectionParams entries;
and any other library write or delete batch, which never names either flag. -/
inductive ReachableHash : List (String × String) → Prop where
  | empty : ReachableHash []
  | connect (h : List (String × String)) (extra : JSVal) (hr : ReachableHash h) :
      ReachableHash (mergePairs h (compressContext
        { connectionInitReceived := false, acknowledged := false,
          connectionParams := .vundef, extra := extra }))
  | connectionInit (h : List (String × String)) (cp : JSVal) (hr : ReachableHash h) :
      ReachableHash (mergePairs h
        (proxySetChanges "acknowledged" (.vbool true)
          ++ proxySetChanges "connectionInitReceived" (.vbool true)
          ++ proxySetChanges "connectionParams" cp))
  | otherSet (h : List (String × String)) (pairs : List (String × String))
      (hr : ReachableHash h)
      (hp : ∀ e ∈ pairs, ¬e.1 = "connectionInitReceived" ∧ ¬e.1 = "acknowledged") :
      ReachableHash (mergePairs h pairs)
  | otherDel (h : List (String × String)) (fields : List String) (hr : ReachableHash h)
      (hf : "connectionInitReceived" ∉ fields ∧ "acknowledged" ∉ fields) :
      ReachableHash (removeFields h fields)

/-- Claim C10: every persisted context the adapter can produce stores the same
value under connectionInitReceived and acknowledged — CONNECT writes both false,
the ConnectionInit flush writes both true in the same batch, and no other
operation names either flag, so init-received-but-not-acknowledged is never
observable across invocations. -/
theorem C10_flags_in_lockstep (h : List (String × String)) (hr : ReachableHash h) :
    alookup h "connectionInitReceived" = alookup h "acknowledged" := by
  induction hr with
  | empty => rfl
  | connect h0 extra hr ih =>
    rw [alookup_mergePairs_some (compress_connect_flags extra).1,
      alookup_mergePairs_some (compress_connect_flags extra).2]
  | connectionInit h0 cp hr ih =>
    rw [alookup_mergePairs_some (init_pairs_flags cp).1,
      alookup_mergePairs_some (init_pairs_flags cp).2]
  | otherSet h0 pairs hr hp ih =>
    have hn1 : alookup pairs.reverse "connectionInitReceived" = none :=
      alookup_none_of_keys _ _ (fun e he => (hp e (List.mem_reverse.mp he)).1)
    have hn2 : alookup pairs.reverse "acknowledged" = none :=
      alookup_none_of_keys _ _ (fun e he => (hp e (List.mem_reverse.mp he)).2)
    rw [alookup_mergePairs_none hn1, alookup_mergePairs_none hn2]
    exact ih
  | otherDel h0 fields hr hf ih =>
    rw [alookup_removeFields_of_not_mem h0 fields _ hf.1,
      alookup_removeFields_of_not_mem h0 fields _ hf.2]
    exact ih

/-- Witness for claim C10 at the hash a fresh CONNECT produces. -/
theorem C10_flags_in_lockstep_witness :
    alookup (mergePairs [] (compressContext
      { connectionInitReceived := false, acknowledged := false,
        connectionParams := .vundef, extra := .vundef })) "connectionInitReceived"
      = alookup (mergePairs [] (compressContext
        { connectionInitReceived := false, acknowledged := false,
          connectionParams := .vundef, extra := .vundef })) "acknowledged" :=
  C10_flags_in_lockstep _ (ReachableHash.connect [] (.vundef) ReachableHash.empty)

end GraphqlLambda
